import Mathlib

/-!
Verification development for the dungen_minion generator-composition core.

The Rust sources are shallowly embedded: registry handles (`MapId`) are
natural numbers, the registry (`MAPS`) is a function from handles to map
entities, tile grids are functions from positions to optional tile types, and
every generator's `dun_gen_map` body is translated into an executable Lean
function.  Randomness (the `rand` crate) is modelled by explicit oracle
streams passed as arguments.
-/

namespace DungenMinion

/-- Modelled from the spec: opaque, copyable, never-recycled registry handle
(`MapId` in `dungen_minion_rooms`). -/
abbrev MapId := Nat

/-- Modelled from the spec: integer grid position from the external geometry
collaborator (`Position`). -/
structure Position where
  x : Int
  y : Int
deriving DecidableEq, Repr

instance : Add Position where
  add a b := ⟨a.x + b.x, a.y + b.y⟩

instance : Sub Position where
  sub a b := ⟨a.x - b.x, a.y - b.y⟩

/-- Tile kinds stored in a map's grid (`TileType` in `dungen_minion_rooms`). -/
inductive TileType where
  | Void
  | Floor
  | Wall
  | Portal
deriving DecidableEq, Repr

/-- Modelled from the spec: cardinal facing directions from the geometry
collaborator (`CardinalDirection`). -/
inductive CardinalDirection where
  | North
  | East
  | South
  | West
deriving DecidableEq, Repr

/-- Modelled from the spec: direction negation (the geometry collaborator's
`-facing`, giving the opposite direction). -/
def CardinalDirection.neg : CardinalDirection → CardinalDirection
  | .North => .South
  | .East => .West
  | .South => .North
  | .West => .East

/-- Directed portal edge: `local_position` on the owner, the facing and
position an entity arrives with on the target map, and the target handle
(struct `Portal` of `dungen_minion_rooms`, as used by the registry-based
generators in `src`). -/
structure Portal where
  local_position : Position
  portal_to_map_facing : CardinalDirection
  portal_to_map_position : Position
  target : MapId
deriving DecidableEq, Repr

/-- Sub-map reference: a target map embedded at an offset position
(`sub_map.value()` is the handle in the source's doc tests). -/
structure SubMap where
  position : Position
  value : MapId
deriving DecidableEq, Repr

/-- Map entity: bounding size, tile grid, ordered portal list and ordered
sub-map list.  Unset cells read as `none` (the source's sparse storage). -/
structure Map where
  width : Nat
  height : Nat
  tiles : Position → Option TileType
  portals : List Portal
  sub_maps : List SubMap

/-- Modelled from the spec: the shared map registry `MAPS`, as the mapping
from handles to map entities.  Lock acquisition is modelled separately where
a claim is about locking. -/
abbrev Store := MapId → Map

/-! ## VisitMapOnceGenerator (src/visit_map_once_generator.rs)

`dun_gen` and `dun_gen_map` both check-and-insert the current handle in the
guard's `visited_maps` set and invoke the inner generator only when the
handle was not yet present.  The visited set is modelled as a list with
membership semantics; the inner generator invocations are recorded as the
list of handles it is invoked on. -/

/-- One call to `VisitMapOnceGenerator::dun_gen_map` (or `dun_gen`): returns
the updated visited set and whether the inner generator was invoked. -/
def visitOnceStep (visited : List MapId) (id : MapId) : List MapId × Bool :=
  if id ∈ visited then (visited, false) else (id :: visited, true)

/-- A sequence of calls to one `VisitMapOnceGenerator` instance: returns the
final visited set and the list of handles the inner generator was invoked
on, in order.  Each call inlines `visitOnceStep`: on an already-visited
handle the wrapper returns without invoking the inner generator; otherwise
the handle is inserted and the inner generator runs. -/
def visitOnceRun : List MapId → List MapId → List MapId × List MapId
  | [], visited => (visited, [])
  | id :: rest, visited =>
    if id ∈ visited then visitOnceRun rest visited
    else
      let tail := visitOnceRun rest (id :: visited)
      (tail.1, id :: tail.2)

/-! ## TraversePortalsGenerator (src/traverse_portals_generator.rs and
src/traverse_portals_dun_gen.rs)

These files use the boxed-ownership variant of the API: a `Portal` owns its
target `Box<dyn PlacedRoom>`, so a map and its portal targets form a finite
tree.  `RoomTree` models a map as the tree of its portal targets (portal
payloads other than the target are irrelevant to the traversal claims).

`dun_gen_placed_map` iterates the live portal list; for every portal target
it first calls itself recursively on the target and then invokes the inner
generator on the target.  `traverseInvocations` records, in order, the maps
on which the inner generator is invoked. -/

/-- A map of the boxed variant, abstracted to its portal-target tree: the
children are the targets of the map's portals, in insertion order. -/
inductive RoomTree where
  | node : List RoomTree → RoomTree

mutual

/-- Maps on which `TraversePortalsGenerator::dun_gen_placed_map` invokes its
inner generator, in invocation order (translated from the source: for each
portal target, recurse first, then invoke the inner generator). -/
def traverseInvocations : RoomTree → List RoomTree
  | .node cs => traverseInvocationsList cs

/-- The portal loop of `dun_gen_placed_map`, over the owner's portal-target
list. -/
def traverseInvocationsList : List RoomTree → List RoomTree
  | [] => []
  | c :: cs => (traverseInvocations c ++ [c]) ++ traverseInvocationsList cs

end

mutual

/-- Number of maps reachable from a map through one or more portal hops,
counted once per reaching path. -/
def numDescendants : RoomTree → Nat
  | .node cs => numDescList cs

/-- Sum, over a portal-target list, of one plus each target's descendant
count. -/
def numDescList : List RoomTree → Nat
  | [] => 0
  | c :: cs => (1 + numDescendants c) + numDescList cs

end

mutual

/-- Structural size of a room tree (for induction). -/
def treeSize : RoomTree → Nat
  | .node cs => 1 + treeSizeList cs

/-- Structural size of a portal-target list. -/
def treeSizeList : List RoomTree → Nat
  | [] => 0
  | c :: cs => treeSize c + treeSizeList cs

end

/-- Reachability through one or more portal hops in the boxed-ownership
graph. -/
inductive Hops : RoomTree → RoomTree → Prop where
  | direct {cs : List RoomTree} {c : RoomTree} : c ∈ cs → Hops (.node cs) c
  | step {cs : List RoomTree} {c t : RoomTree} : c ∈ cs → Hops c t → Hops (.node cs) t

/-! ## ReciprocatePortalsGenerator (src/reciprocate_portals_generator.rs)

The registry-based generator: `dun_gen_map` write-locks the source map;
returns if the source size is degenerate; then, for each source portal in
order, write-locks the portal's target, returns (aborting the remaining
portals) if the target size is degenerate, scans the target's portals for a
match of the source portal's local position against their positions on
target, and when no match exists inserts the synthesized reciprocal portal
on the target and records its position back on the source portal. -/

/-- Modelled from the spec: the rand crate's half-open sampler
`rng.gen_range(lo, hi)`, driven by an explicit oracle value `r`; the result
lies in `[lo, hi)` whenever `lo < hi`. -/
def genRange (lo hi r : Nat) : Nat := lo + r % (hi - lo)

/-- The random reciprocal-portal position chosen by `dun_gen_map` for a
portal whose target-facing is `facing`, on a target map of size `w × h`
(the source's match over the four `CardinalDirection` arms, with the
`as i32` casts made explicit). -/
def reciprocalPosition (facing : CardinalDirection) (w h : Nat) (r : Nat) : Position :=
  match facing with
  | .North => ⟨(genRange 1 (w - 1) r : Nat), 0⟩
  | .East => ⟨(w : Int) - 1, (genRange 1 (h - 1) r : Nat)⟩
  | .South => ⟨(genRange 1 (w - 1) r : Nat), (h : Int) - 1⟩
  | .West => ⟨0, (genRange 1 (h - 1) r : Nat)⟩

/-- The `found_match` scan of `dun_gen_map`: does the target map own a
portal whose position on target equals the source portal's local
position? -/
def foundMatch (p : Position) (targetPortals : List Portal) : Bool :=
  targetPortals.any (fun op => decide (op.portal_to_map_position = p))

/-- Modelled from the spec: `Map::add_portal(local_position, facing,
position_on_target, target)` appends a portal to the owner's ordered portal
list. -/
def Map.add_portal (m : Map) (lp : Position) (facing : CardinalDirection)
    (ptm : Position) (target : MapId) : Map :=
  { m with portals := m.portals ++ [⟨lp, facing, ptm, target⟩] }

/-- The portal loop of `ReciprocatePortalsGenerator::dun_gen_map`, threading
the registry: processes the source's portals in order (`idx` indexes the
randomness oracle), returning the updated source-portal list and registry.
A degenerate target aborts the loop, leaving the remaining portals
untouched (the source's mid-loop `return`).  Target sizes are read from the
evolving registry exactly as the source reads them through the target's
write guard. -/
def recipGo (selfId : MapId) (rng : Nat → Nat) :
    List Portal → Nat → Store → List Portal × Store
  | [], _, store => ([], store)
  | p :: rest, idx, store =>
    let tm := store p.target
    if tm.width < 3 ∨ tm.height < 3 then
      (p :: rest, store)
    else if foundMatch p.local_position tm.portals then
      let tail := recipGo selfId rng rest (idx + 1) store
      (p :: tail.1, tail.2)
    else
      let qpos := reciprocalPosition p.portal_to_map_facing tm.width tm.height (rng idx)
      let store1 := Function.update store p.target
        (Map.add_portal tm qpos p.portal_to_map_facing.neg p.local_position selfId)
      let tail := recipGo selfId rng rest (idx + 1) store1
      ({ p with portal_to_map_position := qpos } :: tail.1, tail.2)

/-- `ReciprocatePortalsGenerator::dun_gen_map` on handle `selfId`: degenerate
source sizes return with no mutation; otherwise the portal loop runs and the
(partially) rewritten portal list is the source map's new portal list.  The
write guard held on the source throughout the loop is reflected by writing
the portal list back at the end; this is observationally the in-place
mutation of the source provided no portal targets `selfId` itself (a
self-targeting portal deadlocks the real code, see `recipLocks`). -/
def ReciprocatePortalsGenerator.dun_gen_map (selfId : MapId) (rng : Nat → Nat)
    (store : Store) : Store :=
  let m := store selfId
  if m.width < 3 ∨ m.height < 3 then store
  else
    let res := recipGo selfId rng m.portals 0 store
    Function.update res.2 selfId { res.2 selfId with portals := res.1 }

/-- Write-lock acquisitions attempted on portal targets by the loop of
`ReciprocatePortalsGenerator::dun_gen_map` (the `maps[target_map_id].write()`
calls), in order: each target's lock is acquired before its size is checked,
and a degenerate target ends the loop right after that acquisition.  Map
sizes never change during the run, so the initial sizes decide the loop's
extent. -/
def recipLocksGo (store : Store) : List Portal → List MapId
  | [] => []
  | p :: rest =>
    if (store p.target).width < 3 ∨ (store p.target).height < 3 then [p.target]
    else p.target :: recipLocksGo store rest

/-- Write-lock acquisitions attempted while `dun_gen_map` already holds the
write lock on the source map `selfId`. -/
def recipLocks (selfId : MapId) (store : Store) : List MapId :=
  if (store selfId).width < 3 ∨ (store selfId).height < 3 then []
  else recipLocksGo store (store selfId).portals

/-- Edge positions eligible for a synthesized reciprocal portal: the target
edge on which a portal facing the negation of `facing` sits (the code's
North, East, South, West arms), corners excluded. -/
def oppositeEdgeNonCorner (facing : CardinalDirection) (w h : Nat) (pos : Position) : Prop :=
  match facing with
  | .North => pos.y = 0 ∧ 1 ≤ pos.x ∧ pos.x ≤ (w : Int) - 2
  | .East => pos.x = (w : Int) - 1 ∧ 1 ≤ pos.y ∧ pos.y ≤ (h : Int) - 2
  | .South => pos.y = (h : Int) - 1 ∧ 1 ≤ pos.x ∧ pos.x ≤ (w : Int) - 2
  | .West => pos.x = 0 ∧ 1 ≤ pos.y ∧ pos.y ≤ (h : Int) - 2

/-- Number of portals in a list whose position on target equals `v` (the
quantity scanned by reciprocation's match loop). -/
def ptmCount (v : Position) (ps : List Portal) : Nat :=
  ps.countP (fun q => decide (q.portal_to_map_position = v))

/-! ## EdgePortalsGenerator (src/edge_portals_generator.rs)

The boxed-variant generator: all four entry points return immediately when
the map's width or height is below 3; otherwise `count` portals are added on
random non-corner edge positions.  The `gen_bool`/`gen_range` draws are
modelled by oracle streams; the freshly provided boxed placed room of each
portal is modelled as a handle from the `targets` oracle. -/

/-- One portal insertion of `EdgePortalsGenerator` (iteration `i` of the
count loop): vertical-versus-horizontal wall, left-versus-right (or
top-versus-bottom) side, and the edge offset come from the oracles exactly
as the source's `gen_bool`/`gen_range` calls; the new room enters with a
default position on target (modelled from the spec for the boxed room
payload). -/
def edgePortalChoice (w h : Nat) (vert side : Bool) (off : Nat) (target : MapId) : Portal :=
  if vert then
    let y : Int := (genRange 1 (h - 1) off : Nat)
    if side then ⟨⟨0, y⟩, .East, ⟨0, 0⟩, target⟩
    else ⟨⟨(w : Int) - 1, y⟩, .West, ⟨0, 0⟩, target⟩
  else
    let x : Int := (genRange 1 (w - 1) off : Nat)
    if side then ⟨⟨x, 0⟩, .South, ⟨0, 0⟩, target⟩
    else ⟨⟨x, (h : Int) - 1⟩, .North, ⟨0, 0⟩, target⟩

/-- `EdgePortalsGenerator::dun_gen_map` (and its placed variants, whose
bodies are identical): no mutation at all when the map size is degenerate,
otherwise `count` edge portals are appended in iteration order. -/
def EdgePortalsGenerator.dun_gen_map (count : Nat) (vert side : Nat → Bool)
    (off : Nat → Nat) (targets : Nat → MapId) (m : Map) : Map :=
  if m.width < 3 ∨ m.height < 3 then m
  else
    { m with
      portals := m.portals ++ (List.range count).map
        (fun i => edgePortalChoice m.width m.height (vert i) (side i) (off i) (targets i)) }

/-! ## SubMapGenerator (src/sub_map_generator.rs)

For each generator set and each required count, `dun_gen_map` loops: sample
a position, obtain a fresh handle from the map provider, run the sub-map
generators on it, and then consult the set-level validity check `sc` and the
generator-level check `gc`: if both are absent the candidate is accepted at
once; a present check that accepts breaks the loop; a present check that
rejects calls `invalidate_map` on the candidate (never freeing the handle)
and the loop retries with a fresh position and handle.  The loop has no
iteration bound. -/

/-- The retry loop of one count step of `SubMapGenerator::dun_gen_map`.
`pos` is the position-provider oracle indexed by attempt; the map provider
is modelled from the spec as allocating the next fresh handle, here the
attempt index `i` (handles are never recycled).  `fuel` bounds how far this
unfolding follows the unbounded source loop; `none` means the loop was still
running when the fuel ran out.  On success, returns the trace of
`invalidate_map` calls and the embedded `(position, handle)` candidate. -/
def subMapLoop (sc gc : Option (Position → MapId → Bool)) (pos : Nat → Position) :
    Nat → Nat → List MapId → Option (List MapId × Position × MapId)
  | 0, _, _ => none
  | fuel + 1, i, inv =>
    let p := pos i
    let id := i
    match sc, gc with
    | some c, some g =>
      if c p id then some (inv, p, id)
      else if g p id then some (inv ++ [id], p, id)
      else subMapLoop sc gc pos fuel (i + 1) (inv ++ [id, id])
    | some c, none =>
      if c p id then some (inv, p, id)
      else subMapLoop sc gc pos fuel (i + 1) (inv ++ [id])
    | none, some g =>
      if g p id then some (inv, p, id)
      else subMapLoop sc gc pos fuel (i + 1) (inv ++ [id])
    | none, none => some (inv, p, id)

/-- One count step of `SubMapGenerator::dun_gen_map` including the final
`add_sub_map(position, new_map_id)` on the parent once the loop accepts a
candidate; `none` when the loop did not break within the given fuel. -/
def SubMapGenerator.place (sc gc : Option (Position → MapId → Bool))
    (pos : Nat → Position) (fuel : Nat) (parentId : MapId) (store : Store) :
    Option (List MapId × Store) :=
  match subMapLoop sc gc pos fuel 0 [] with
  | none => none
  | some (inv, p, id) =>
    some (inv, Function.update store parentId
      { store parentId with sub_maps := (store parentId).sub_maps ++ [⟨p, id⟩] })

/-! ## MergePortalMapsAsSubMapsGenerator
(src/merge_portal_maps_as_sub_maps_generator.rs)

`dun_gen_map` returns at once when the root handle is already in the
generator's persistent visited set or the recursion depth is zero; it then
scans the root's portals, marking and collecting each filter-accepted,
not-yet-visited target together with the offset
`local_position − position_on_target`, registers each collected pair as a
sub-map of the root, and — when depth exceeds one — continues breadth-first
through the `on_maps` queue, accumulating offsets additively and always
registering on the root. -/

/-- A queue entry of the merge loop `on_maps`: accumulated offset, remaining
recursion depth, and the map whose portals are to be expanded. -/
structure MergeEntry where
  acc : Position
  depth : Nat
  id : MapId
deriving DecidableEq, Repr

/-- The portal scan shared by both phases of `dun_gen_map`: walk the portal
list in order; a portal accepted by the filter whose target is not yet
visited marks the target visited and contributes
`(local_position − position_on_target, target)`, in order. -/
def mergeCollect (pf : Portal → Bool) : List Portal → List MapId →
    List MapId × List (Position × MapId)
  | [], visited => (visited, [])
  | p :: rest, visited =>
    if pf p then
      if p.target ∈ visited then mergeCollect pf rest visited
      else
        let tail := mergeCollect pf rest (p.target :: visited)
        (tail.1, (p.local_position - p.portal_to_map_position, p.target) :: tail.2)
    else mergeCollect pf rest visited

/-- Expansion potential of a map at a given remaining depth: one plus the
potentials of all portal targets one level down.  It bounds the number of
loop iterations a queue entry can cause, and supplies the loop's fuel. -/
def mergePotential (store : Store) : Nat → MapId → Nat
  | 0, _ => 1
  | d + 1, id => 1 + ((store id).portals.map (fun p => mergePotential store d p.target)).sum

/-- Total expansion potential of a queue. -/
def mergeQueuePotential (store : Store) (queue : List MergeEntry) : Nat :=
  (queue.map (fun e => mergePotential store e.depth e.id)).sum

/-- The `while !on_maps.is_empty()` loop of `dun_gen_map`: pop the front
entry; skip it when its remaining depth is zero; otherwise scan its map's
portals with `mergeCollect` under the current visited set, register a
sub-map of the ROOT for each fresh accepted target at the accumulated offset
plus the portal's own offset, and push each such target with one less
depth.  `fuel` bounds the iterations of this unfolding; the termination
theorem shows the queue potential always suffices, and the registry is read
but never written by the loop (sub-maps are accumulated in `acc` and written
to the root once, exactly as the held write guard does). -/
def mergeBfs (pf : Portal → Bool) (store : Store) :
    Nat → List MergeEntry → List MapId → List SubMap → List MapId × List SubMap
  | 0, _, visited, acc => (visited, acc)
  | _ + 1, [], visited, acc => (visited, acc)
  | fuel + 1, e :: queue, visited, acc =>
    if e.depth = 0 then mergeBfs pf store fuel queue visited acc
    else
      let col := mergeCollect pf ((store e.id).portals) visited
      mergeBfs pf store fuel
        (queue ++ col.2.map (fun x => ⟨e.acc + x.1, e.depth - 1, x.2⟩))
        col.1
        (acc ++ col.2.map (fun x => ⟨e.acc + x.1, x.2⟩))

/-- `MergePortalMapsAsSubMapsGenerator::dun_gen_map` on root `map_id`, with
the generator's persistent visited set `visited0` and constructor-supplied
`recursion_depth` and portal filter: returns the updated visited set and
registry. -/
def MergePortalMapsAsSubMapsGenerator.dun_gen_map (pf : Portal → Bool)
    (recursion_depth : Nat) (visited0 : List MapId) (map_id : MapId)
    (store : Store) : List MapId × Store :=
  if map_id ∈ visited0 then (visited0, store)
  else
    let visited1 := map_id :: visited0
    if recursion_depth = 0 then (visited1, store)
    else
      let col := mergeCollect pf ((store map_id).portals) visited1
      let subs1 := col.2.map (fun x => (⟨x.1, x.2⟩ : SubMap))
      if recursion_depth = 1 then
        (col.1, Function.update store map_id
          { store map_id with sub_maps := (store map_id).sub_maps ++ subs1 })
      else
        let entries := col.2.map
          (fun x => (⟨x.1, recursion_depth - 1, x.2⟩ : MergeEntry))
        let res := mergeBfs pf store (mergeQueuePotential store entries) entries
          col.1 subs1
        (res.1, Function.update store map_id
          { store map_id with sub_maps := (store map_id).sub_maps ++ res.2 })

/-- Offset-sum relation for merge soundness: a chain of filter-accepted
portals leads from `a` to `b` and its per-hop offsets
`local_position − position_on_target` sum to `off`. -/
inductive AccPath (pf : Portal → Bool) (store : Store) : MapId → Position → MapId → Prop where
  | single {a : MapId} {p : Portal} : p ∈ (store a).portals → pf p = true →
      AccPath pf store a (p.local_position - p.portal_to_map_position) p.target
  | cons {a b : MapId} {off : Position} {p : Portal} :
      AccPath pf store a off b → p ∈ (store b).portals → pf p = true →
      AccPath pf store a (off + (p.local_position - p.portal_to_map_position)) p.target

/-! ## WalledRoomGenerator (src/walled_room_generator.rs)

`new(provides_area)` sets the filter `dont_replace = [Some(TileType::Portal)]`;
`with_filter` takes the filter from the caller.  `dun_gen_map` resolves the
area (the provided one when it has positive width or height, otherwise the
map's own size at the origin), returns when the resolved size is zero, and
then walks the top row, the left and right columns, and the bottom row,
writing `Wall` at every visited position whose current tile value is not in
the filter. -/

/-- Modelled from the spec: rectangular area of the geometry collaborator —
a position plus a size; `right` and `bottom` are the greatest column and row
of the area. -/
structure Area where
  px : Int
  py : Int
  width : Nat
  height : Nat
deriving DecidableEq, Repr

/-- Greatest column of an area (`area.right()`). -/
def Area.right (a : Area) : Int := a.px + a.width - 1

/-- Greatest row of an area (`area.bottom()`). -/
def Area.bottom (a : Area) : Int := a.py + a.height - 1

/-- Inclusive integer range `a..=b` as a list (empty when `b < a`). -/
def intRangeIncl (a b : Int) : List Int :=
  (List.range (b + 1 - a).toNat).map (fun k => a + (k : Int))

/-- The positions visited by the three wall loops of `dun_gen_map`, in visit
order: the top row at `y = 0`, then per row the left column at `x = 0` and
the right column at `x = area.right`, then the bottom row at
`y = area.bottom`.  The zero coordinates are hard-coded in the source; the
area's own position enters only the loop bounds. -/
def walledVisited (area : Area) : List Position :=
  (intRangeIncl area.px area.right).map (fun x => ⟨x, 0⟩) ++
    (intRangeIncl area.py area.bottom).flatMap (fun y => [⟨0, y⟩, ⟨area.right, y⟩]) ++
    (intRangeIncl area.px area.right).map (fun x => ⟨x, area.bottom⟩)

/-- One tile write of the wall loops: set `Wall` at `p` unless the current
value of that tile is in the `dont_replace` filter. -/
def writeWall (dr : List (Option TileType)) (tiles : Position → Option TileType)
    (p : Position) : Position → Option TileType :=
  if tiles p ∈ dr then tiles else Function.update tiles p (some TileType.Wall)

/-- The three wall loops as a fold of `writeWall` over the visited
positions. -/
def walkWrite (dr : List (Option TileType)) (ps : List Position)
    (tiles : Position → Option TileType) : Position → Option TileType :=
  ps.foldl (writeWall dr) tiles

/-- The area `dun_gen_map` actually walls: the provided area when it has
positive width or height, otherwise the map's own size at the origin. -/
def WalledRoomGenerator.resolvedArea (provArea : Area) (m : Map) : Area :=
  if 0 < provArea.width ∨ 0 < provArea.height then provArea
  else ⟨0, 0, m.width, m.height⟩

/-- `WalledRoomGenerator::dun_gen_map` with provided area `provArea` and
filter `dr` (`new()` passes `[some TileType.Portal]`, `with_filter` passes
the caller's list). -/
def WalledRoomGenerator.dun_gen_map (provArea : Area) (dr : List (Option TileType))
    (m : Map) : Map :=
  let area := WalledRoomGenerator.resolvedArea provArea m
  if area.width = 0 ∧ area.height = 0 then m
  else { m with tiles := walkWrite dr (walledVisited area) m.tiles }

/-! ## Concrete registries used by witnesses and counterexamples -/

/-- Registry with a 3 by 3 source map 0 carrying one northbound portal to an
empty 3 by 3 map 1. -/
def recipExampleStore : Store := fun id =>
  if id = 0 then
    { width := 3, height := 3, tiles := fun _ => none,
      portals := [⟨⟨1, 0⟩, .North, ⟨0, 0⟩, 1⟩], sub_maps := [] }
  else
    { width := 3, height := 3, tiles := fun _ => none, portals := [], sub_maps := [] }

/-- Registry with a 3 by 3 source map 0 carrying two portals with identical
local position and identical target, the empty 4 by 4 map 1. -/
def recipDupStore : Store := fun id =>
  if id = 0 then
    { width := 3, height := 3, tiles := fun _ => none,
      portals := [⟨⟨1, 0⟩, .North, ⟨0, 0⟩, 1⟩, ⟨⟨1, 0⟩, .North, ⟨0, 0⟩, 1⟩],
      sub_maps := [] }
  else if id = 1 then
    { width := 4, height := 4, tiles := fun _ => none, portals := [], sub_maps := [] }
  else
    { width := 3, height := 3, tiles := fun _ => none, portals := [], sub_maps := [] }

/-- Registry whose map 0 carries a self-targeting portal. -/
def selfLoopStore : Store := fun _ =>
  { width := 3, height := 3, tiles := fun _ => none,
    portals := [⟨⟨1, 0⟩, .North, ⟨0, 0⟩, 0⟩], sub_maps := [] }

/-- Registry whose source map 0 first reaches the healthy 4 by 4 map 1 and
then the degenerate 2 by 2 map 2. -/
def recipDegenStore : Store := fun id =>
  if id = 0 then
    { width := 3, height := 3, tiles := fun _ => none,
      portals := [⟨⟨1, 0⟩, .North, ⟨0, 0⟩, 1⟩, ⟨⟨2, 1⟩, .East, ⟨0, 0⟩, 2⟩],
      sub_maps := [] }
  else if id = 1 then
    { width := 4, height := 4, tiles := fun _ => none, portals := [], sub_maps := [] }
  else
    { width := 2, height := 2, tiles := fun _ => none, portals := [], sub_maps := [] }

/-- Registry whose root map 0 carries two portals to the same target map 1,
with different offsets. -/
def mergeDupStore : Store := fun id =>
  if id = 0 then
    { width := 3, height := 3, tiles := fun _ => none,
      portals := [⟨⟨5, 0⟩, .North, ⟨1, 0⟩, 1⟩, ⟨⟨9, 9⟩, .North, ⟨2, 2⟩, 1⟩],
      sub_maps := [] }
  else
    { width := 3, height := 3, tiles := fun _ => none, portals := [], sub_maps := [] }

/-- Registry with a two-hop portal chain 0 to 1 to 2. -/
def mergeChainStore : Store := fun id =>
  if id = 0 then
    { width := 3, height := 3, tiles := fun _ => none,
      portals := [⟨⟨2, 3⟩, .North, ⟨1, 1⟩, 1⟩], sub_maps := [] }
  else if id = 1 then
    { width := 3, height := 3, tiles := fun _ => none,
      portals := [⟨⟨5, 5⟩, .North, ⟨2, 2⟩, 2⟩], sub_maps := [] }
  else
    { width := 3, height := 3, tiles := fun _ => none, portals := [], sub_maps := [] }

/-! ## Theorems -/

/-- Invoked handles of a visit-once run: no duplicates; a handle is invoked
iff it occurs in the call sequence and was not pre-visited; the final visited
set is the union of the initial one and the sequence. -/
theorem visitOnceRun_spec (seq : List MapId) : ∀ visited : List MapId,
    (visitOnceRun seq visited).2.Nodup ∧
      (∀ id, id ∈ (visitOnceRun seq visited).2 ↔ id ∈ seq ∧ id ∉ visited) ∧
      (∀ id, id ∈ (visitOnceRun seq visited).1 ↔ id ∈ visited ∨ id ∈ seq) := by
  induction seq with
  | nil => intro visited; simp [visitOnceRun]
  | cons id0 rest ih =>
    intro visited
    by_cases h0 : id0 ∈ visited
    · obtain ⟨h1, h2, h3⟩ := ih visited
      refine ⟨?_, ?_, ?_⟩
      · simpa [visitOnceRun, h0] using h1
      · intro id
        simp only [visitOnceRun, if_pos h0]
        rw [h2 id, List.mem_cons]
        constructor
        · rintro ⟨hm, hnv⟩; exact ⟨Or.inr hm, hnv⟩
        · rintro ⟨rfl | hm, hnv⟩
          · exact absurd h0 hnv
          · exact ⟨hm, hnv⟩
      · intro id
        simp only [visitOnceRun, if_pos h0]
        rw [h3 id, List.mem_cons]
        constructor
        · rintro (hv | hm)
          · exact Or.inl hv
          · exact Or.inr (Or.inr hm)
        · rintro (hv | rfl | hm)
          · exact Or.inl hv
          · exact Or.inl h0
          · exact Or.inr hm
    · obtain ⟨h1, h2, h3⟩ := ih (id0 :: visited)
      refine ⟨?_, ?_, ?_⟩
      · simp only [visitOnceRun, if_neg h0]
        refine List.Nodup.cons ?_ h1
        intro hmem
        exact ((h2 id0).mp hmem).2 (List.mem_cons_self _ _)
      · intro id
        simp only [visitOnceRun, if_neg h0, List.mem_cons]
        rw [h2 id]
        simp only [List.mem_cons]
        by_cases hid : id = id0
        · subst hid; tauto
        · tauto
      · intro id
        simp only [visitOnceRun, if_neg h0]
        rw [h3 id]
        simp only [List.mem_cons]
        tauto

/-- C1: for one `VisitMapOnceGenerator` instance, over any sequence of calls
to its `dun_gen`/`dun_gen_map` entry points starting from a fresh guard, the
inner generator is invoked at most once per `MapId` (the invocation list has
no duplicates), a handle is invoked iff it occurs in the sequence, the number
of invocations equals the number of distinct handles offered, and a call on
an already-visited handle returns without invoking the inner generator. -/
theorem visitMapOnce_invokes_inner_once_per_id (seq : List MapId) :
    (visitOnceRun seq []).2.Nodup ∧
      (∀ id, id ∈ (visitOnceRun seq []).2 ↔ id ∈ seq) ∧
      (visitOnceRun seq []).2.length = seq.toFinset.card ∧
      (∀ visited id, id ∈ visited → visitOnceStep visited id = (visited, false)) := by
  obtain ⟨h1, h2, _⟩ := visitOnceRun_spec seq []
  have hmem : ∀ id, id ∈ (visitOnceRun seq []).2 ↔ id ∈ seq := by
    intro id
    rw [h2 id]
    simp
  refine ⟨h1, hmem, ?_, ?_⟩
  · have hfin : (visitOnceRun seq []).2.toFinset = seq.toFinset := by
      apply Finset.ext
      intro id
      simp only [List.mem_toFinset]
      exact hmem id
    calc (visitOnceRun seq []).2.length
        = (visitOnceRun seq []).2.toFinset.card := (List.toFinset_card_of_nodup h1).symm
      _ = seq.toFinset.card := by rw [hfin]
  · intro visited id h
    simp [visitOnceStep, h]

/-- Witness for C1 at the concrete call sequence `[0, 1, 0, 2]` (handle `0`
recurs), and the skip of an already-visited handle. -/
theorem visitMapOnce_witness :
    ((visitOnceRun [0, 1, 0, 2] []).2.Nodup ∧
        (visitOnceRun [0, 1, 0, 2] []).2.length = [0, 1, 0, 2].toFinset.card) ∧
      visitOnceStep [5] 5 = ([5], false) := by
  have h := visitMapOnce_invokes_inner_once_per_id [0, 1, 0, 2]
  exact ⟨⟨h.1, h.2.2.1⟩, h.2.2.2 [5] 5 (by decide)⟩

theorem treeSize_pos (m : RoomTree) : 1 ≤ treeSize m := by
  cases m with
  | node cs => simp [treeSize]

theorem treeSize_le_of_mem {c : RoomTree} {cs : List RoomTree} (h : c ∈ cs) :
    treeSize c ≤ treeSizeList cs := by
  induction cs with
  | nil => cases h
  | cons d ds ih =>
    rcases List.mem_cons.mp h with rfl | h
    · simp [treeSizeList]
    · calc treeSize c ≤ treeSizeList ds := ih h
        _ ≤ treeSize d + treeSizeList ds := Nat.le_add_left _ _
        _ = treeSizeList (d :: ds) := rfl

theorem mem_traverseInvocationsList {t : RoomTree} {cs : List RoomTree} :
    t ∈ traverseInvocationsList cs ↔ ∃ c ∈ cs, t ∈ traverseInvocations c ∨ t = c := by
  induction cs with
  | nil => simp [traverseInvocationsList]
  | cons d ds ih =>
    have hdef : traverseInvocationsList (d :: ds) =
        (traverseInvocations d ++ [d]) ++ traverseInvocationsList ds := rfl
    rw [hdef]
    constructor
    · intro h
      rcases List.mem_append.mp h with h1 | h2
      · rcases List.mem_append.mp h1 with h3 | h4
        · exact ⟨d, List.mem_cons_self _ _, Or.inl h3⟩
        · exact ⟨d, List.mem_cons_self _ _, Or.inr (by simpa using h4)⟩
      · obtain ⟨c, hc, h5⟩ := ih.mp h2
        exact ⟨c, List.mem_cons_of_mem _ hc, h5⟩
    · rintro ⟨c, hc, h⟩
      rcases List.mem_cons.mp hc with rfl | hc
      · rcases h with h | rfl
        · exact List.mem_append.mpr (Or.inl (List.mem_append.mpr (Or.inl h)))
        · exact List.mem_append.mpr (Or.inl (List.mem_append.mpr (Or.inr (by simp))))
      · exact List.mem_append.mpr (Or.inr (ih.mpr ⟨c, hc, h⟩))

theorem traverseInvocationsList_length (cs : List RoomTree)
    (h : ∀ c ∈ cs, (traverseInvocations c).length = numDescendants c) :
    (traverseInvocationsList cs).length = numDescList cs := by
  induction cs with
  | nil => simp [traverseInvocationsList, numDescList]
  | cons d ds ih =>
    have hd := h d (List.mem_cons_self _ _)
    have hds := ih (fun c hc => h c (List.mem_cons_of_mem _ hc))
    simp only [traverseInvocationsList, numDescList, List.length_append,
      List.length_singleton, hd, hds]
    omega

theorem traverseInvocations_spec (n : Nat) :
    ∀ m : RoomTree, treeSize m ≤ n →
      (∀ t, t ∈ traverseInvocations m ↔ Hops m t) ∧
        (traverseInvocations m).length = numDescendants m ∧
        (∀ t ∈ traverseInvocations m, treeSize t < treeSize m) := by
  induction n with
  | zero =>
    intro m hm
    exact absurd (le_trans (treeSize_pos m) hm) (by omega)
  | succ n ih =>
    rintro ⟨cs⟩ hm
    have hsize : treeSizeList cs ≤ n := by
      simp only [treeSize] at hm
      omega
    have hchild : ∀ c ∈ cs, treeSize c ≤ n :=
      fun c hc => le_trans (treeSize_le_of_mem hc) hsize
    refine ⟨?_, ?_, ?_⟩
    · intro t
      simp only [traverseInvocations, mem_traverseInvocationsList]
      constructor
      · rintro ⟨c, hc, hm2 | rfl⟩
        · exact Hops.step hc (((ih c (hchild c hc)).1 t).mp hm2)
        · exact Hops.direct hc
      · intro h
        cases h with
        | direct hc => exact ⟨_, hc, Or.inr rfl⟩
        | step hc ht => exact ⟨_, hc, Or.inl (((ih _ (hchild _ hc)).1 t).mpr ht)⟩
    · simp only [traverseInvocations, numDescendants]
      exact traverseInvocationsList_length cs
        (fun c hc => (ih c (hchild c hc)).2.1)
    · intro t ht
      simp only [traverseInvocations, mem_traverseInvocationsList] at ht
      obtain ⟨c, hc, hm2 | rfl⟩ := ht
      · calc treeSize t < treeSize c := (ih c (hchild c hc)).2.2 t hm2
          _ ≤ treeSizeList cs := treeSize_le_of_mem hc
          _ < treeSize (RoomTree.node cs) := by simp [treeSize]
      · calc treeSize t ≤ treeSizeList cs := treeSize_le_of_mem hc
          _ < treeSize (RoomTree.node cs) := by simp [treeSize]

/-- C2 (amended): `TraversePortalsGenerator` does NOT stop after one hop: its
`dun_gen_placed_map` recurses into every portal target before invoking the
inner generator on it, so over the whole run the inner generator is invoked
exactly on the maps reachable through one or more portal hops (once per
reaching path, depth-first post-order in portal insertion order, as the
defining equations of `traverseInvocations` record), the number of
invocations equals the total path count `numDescendants`, and the inner
generator is never invoked on the starting map itself.  No snapshot of the
portal list is taken; the boxed-ownership portal list is iterated in
place. -/
theorem traversePortals_descends_all_hops (m : RoomTree) :
    (∀ t, t ∈ traverseInvocations m ↔ Hops m t) ∧
      (traverseInvocations m).length = numDescendants m ∧
      m ∉ traverseInvocations m := by
  obtain ⟨h1, h2, h3⟩ := traverseInvocations_spec (treeSize m) m (le_refl _)
  exact ⟨h1, h2, fun hm => absurd (h3 m hm) (by omega)⟩

/-- C2 counterexample: for the two-hop chain `a → b → g` the inner generator
IS invoked on `g`, a map reachable only through two portal hops (the single
direct portal target of `a` is `b`, which differs from `g`); the claimed
one-hop-only behaviour is refuted.  The full invocation list `[g, b]` also
shows the recursive post-order. -/
theorem traversePortals_two_hop_counterexample :
    traverseInvocations (.node [.node [.node []]]) = [.node [], .node [.node []]] ∧
      (RoomTree.node [] = RoomTree.node [.node []] → False) := by
  refine ⟨rfl, fun h => ?_⟩
  injection h with h2
  simp at h2

/-- Witness for C2 (amended) at the concrete two-hop chain. -/
theorem traversePortals_all_hops_witness :
    (RoomTree.node [] ∈ traverseInvocations (.node [.node [.node []]]) ↔
        Hops (.node [.node [.node []]]) (.node [])) ∧
      (traverseInvocations (.node [.node [.node []]])).length = 2 ∧
      RoomTree.node [.node [.node []]] ∉
        traverseInvocations (.node [.node [.node []]]) :=
  ⟨(traversePortals_descends_all_hops _).1 _,
    ((traversePortals_descends_all_hops (.node [.node [.node []]])).2.1).trans rfl,
    (traversePortals_descends_all_hops _).2.2⟩

theorem update_add_portal_preserves_size (store : Store) (t : MapId) (a : Position)
    (b : CardinalDirection) (c : Position) (d : MapId) (id : MapId) :
    (Function.update store t (Map.add_portal (store t) a b c d) id).width = (store id).width ∧
      (Function.update store t (Map.add_portal (store t) a b c d) id).height =
        (store id).height := by
  by_cases h : id = t
  · subst h
    simp [Function.update_same, Map.add_portal]
  · simp [Function.update_noteq h]

theorem update_add_portal_portals (store : Store) (t : MapId) (a : Position)
    (b : CardinalDirection) (c : Position) (d : MapId) (id : MapId) :
    (Function.update store t (Map.add_portal (store t) a b c d) id).portals =
      (store id).portals ++ (if id = t then [⟨a, b, c, d⟩] else []) := by
  by_cases h : id = t
  · subst h
    simp [Function.update_same, Map.add_portal]
  · simp [Function.update_noteq h, h]

theorem foundMatch_iff (v : Position) (ps : List Portal) :
    foundMatch v ps = true ↔ ∃ op ∈ ps, op.portal_to_map_position = v := by
  simp [foundMatch, List.any_eq_true]

theorem foundMatch_eq_false (v : Position) (ps : List Portal) :
    foundMatch v ps = false ↔ ∀ op ∈ ps, op.portal_to_map_position ≠ v := by
  simp [foundMatch, List.any_eq_false]

theorem ptmCount_append (v : Position) (ps qs : List Portal) :
    ptmCount v (ps ++ qs) = ptmCount v ps + ptmCount v qs :=
  List.countP_append _ _ _

theorem ptmCount_singleton (v : Position) (q : Portal) :
    ptmCount v [q] = if q.portal_to_map_position = v then 1 else 0 := by
  by_cases h : q.portal_to_map_position = v <;> simp [ptmCount, List.countP_singleton, h]

theorem ptmCount_pos_of_mem {v : Position} {q : Portal} {ps : List Portal}
    (hq : q ∈ ps) (hv : q.portal_to_map_position = v) : 0 < ptmCount v ps := by
  refine List.countP_pos_iff.mpr ⟨q, hq, ?_⟩
  simp [hv]

theorem recipGo_preserves_size (selfId : MapId) (rng : Nat → Nat) (l : List Portal) :
    ∀ (idx : Nat) (store : Store) (id : MapId),
      ((recipGo selfId rng l idx store).2 id).width = (store id).width ∧
        ((recipGo selfId rng l idx store).2 id).height = (store id).height := by
  induction l with
  | nil => intro idx store id; simp [recipGo]
  | cons p rest ih =>
    intro idx store id
    by_cases hdeg : (store p.target).width < 3 ∨ (store p.target).height < 3
    · simp [recipGo, hdeg]
    · by_cases hfm : foundMatch p.local_position (store p.target).portals
      · simp only [recipGo, if_neg hdeg, if_pos hfm]
        exact ih (idx + 1) store id
      · simp only [recipGo, if_neg hdeg, if_neg hfm]
        obtain ⟨hw, hh⟩ := ih (idx + 1)
          (Function.update store p.target
            (Map.add_portal (store p.target)
              (reciprocalPosition p.portal_to_map_facing (store p.target).width
                (store p.target).height (rng idx))
              p.portal_to_map_facing.neg p.local_position selfId)) id
        obtain ⟨hw2, hh2⟩ := update_add_portal_preserves_size store p.target
          (reciprocalPosition p.portal_to_map_facing (store p.target).width
            (store p.target).height (rng idx))
          p.portal_to_map_facing.neg p.local_position selfId id
        exact ⟨hw.trans hw2, hh.trans hh2⟩

theorem recipGo_portals_append (selfId : MapId) (rng : Nat → Nat) (l : List Portal) :
    ∀ (idx : Nat) (store : Store) (id : MapId),
      ∃ added, ((recipGo selfId rng l idx store).2 id).portals =
        (store id).portals ++ added := by
  induction l with
  | nil => intro idx store id; exact ⟨[], by simp [recipGo]⟩
  | cons p rest ih =>
    intro idx store id
    by_cases hdeg : (store p.target).width < 3 ∨ (store p.target).height < 3
    · exact ⟨[], by simp [recipGo, hdeg]⟩
    · by_cases hfm : foundMatch p.local_position (store p.target).portals
      · simp only [recipGo, if_neg hdeg, if_pos hfm]
        exact ih (idx + 1) store id
      · simp only [recipGo, if_neg hdeg, if_neg hfm]
        obtain ⟨added, hadd⟩ := ih (idx + 1)
          (Function.update store p.target
            (Map.add_portal (store p.target)
              (reciprocalPosition p.portal_to_map_facing (store p.target).width
                (store p.target).height (rng idx))
              p.portal_to_map_facing.neg p.local_position selfId)) id
        rw [hadd, update_add_portal_portals]
        exact ⟨_, (List.append_assoc _ _ _)⟩

theorem recipGo_portals_mono {selfId : MapId} {rng : Nat → Nat} {l : List Portal}
    {idx : Nat} {store : Store} {id : MapId} {op : Portal}
    (h : op ∈ (store id).portals) :
    op ∈ ((recipGo selfId rng l idx store).2 id).portals := by
  obtain ⟨added, hadd⟩ := recipGo_portals_append selfId rng l idx store id
  rw [hadd]
  exact List.mem_append_left _ h

theorem recipGo_count_of_match (selfId : MapId) (rng : Nat → Nat) (l : List Portal) :
    ∀ (idx : Nat) (store : Store) (id : MapId) (v : Position),
      (∃ op ∈ (store id).portals, op.portal_to_map_position = v) →
      ptmCount v (((recipGo selfId rng l idx store).2 id).portals) =
        ptmCount v ((store id).portals) := by
  induction l with
  | nil => intro idx store id v _; simp [recipGo]
  | cons p rest ih =>
    intro idx store id v hop
    by_cases hdeg : (store p.target).width < 3 ∨ (store p.target).height < 3
    · simp [recipGo, hdeg]
    · by_cases hfm : foundMatch p.local_position (store p.target).portals
      · simp only [recipGo, if_neg hdeg, if_pos hfm]
        exact ih (idx + 1) store id v hop
      · simp only [recipGo, if_neg hdeg, if_neg hfm]
        obtain ⟨op, hmem, hv⟩ := hop
        set q : Portal :=
          ⟨reciprocalPosition p.portal_to_map_facing (store p.target).width
            (store p.target).height (rng idx),
            p.portal_to_map_facing.neg, p.local_position, selfId⟩ with hq
        have hup := update_add_portal_portals store p.target q.local_position
          q.portal_to_map_facing q.portal_to_map_position q.target
        have hmem1 : op ∈ (Function.update store p.target
            (Map.add_portal (store p.target) q.local_position q.portal_to_map_facing
              q.portal_to_map_position q.target) id).portals := by
          rw [hup id]
          exact List.mem_append_left _ hmem
        have hstep := ih (idx + 1)
          (Function.update store p.target
            (Map.add_portal (store p.target) q.local_position q.portal_to_map_facing
              q.portal_to_map_position q.target)) id v ⟨op, hmem1, hv⟩
        rw [hstep, hup id]
        by_cases hid : id = p.target
        · subst hid
          have hne : p.local_position ≠ v := by
            intro hcontra
            have : foundMatch p.local_position (store p.target).portals = true := by
              rw [foundMatch_iff]
              exact ⟨op, hmem, by rw [hv, hcontra]⟩
            simp [this] at hfm
          rw [if_pos rfl, ptmCount_append, ptmCount_singleton]
          simp [hne]
        · rw [if_neg hid]
          simp

theorem recipGo_processed (selfId : MapId) (rng : Nat → Nat) (l : List Portal) :
    ∀ (idx : Nat) (store : Store),
      ((recipGo selfId rng l idx store).1.length = l.length) ∧
        (∀ (k : Nat) (p₁ p₂ : Portal),
          (recipGo selfId rng l idx store).1[k]? = some p₁ →
          l[k]? = some p₂ →
          p₁.local_position = p₂.local_position ∧
            p₁.portal_to_map_facing = p₂.portal_to_map_facing ∧ p₁.target = p₂.target) := by
  induction l with
  | nil =>
    intro idx store
    refine ⟨by simp [recipGo], ?_⟩
    intro k p₁ p₂ _ h2
    simp at h2
  | cons p rest ih =>
    intro idx store
    by_cases hdeg : (store p.target).width < 3 ∨ (store p.target).height < 3
    · refine ⟨by simp [recipGo, hdeg], ?_⟩
      intro k p₁ p₂ h1 h2
      simp only [recipGo, if_pos hdeg] at h1
      rw [h1] at h2
      cases h2
      exact ⟨rfl, rfl, rfl⟩
    · by_cases hfm : foundMatch p.local_position (store p.target).portals
      · obtain ⟨hlen, helem⟩ := ih (idx + 1) store
        refine ⟨?_, ?_⟩
        · simp only [recipGo, if_neg hdeg, if_pos hfm, List.length_cons, hlen]
        · intro k p₁ p₂ h1 h2
          simp only [recipGo, if_neg hdeg, if_pos hfm] at h1
          cases k with
          | zero =>
            simp only [List.getElem?_cons_zero] at h1 h2
            cases h1; cases h2
            exact ⟨rfl, rfl, rfl⟩
          | succ k =>
            simp only [List.getElem?_cons_succ] at h1 h2
            exact helem k p₁ p₂ h1 h2
      · obtain ⟨hlen, helem⟩ := ih (idx + 1)
          (Function.update store p.target
            (Map.add_portal (store p.target)
              (reciprocalPosition p.portal_to_map_facing (store p.target).width
                (store p.target).height (rng idx))
              p.portal_to_map_facing.neg p.local_position selfId))
        refine ⟨?_, ?_⟩
        · simp only [recipGo, if_neg hdeg, if_neg hfm, List.length_cons, hlen]
        · intro k p₁ p₂ h1 h2
          simp only [recipGo, if_neg hdeg, if_neg hfm] at h1
          cases k with
          | zero =>
            simp only [List.getElem?_cons_zero] at h1 h2
            cases h1; cases h2
            exact ⟨rfl, rfl, rfl⟩
          | succ k =>
            simp only [List.getElem?_cons_succ] at h1 h2
            exact helem k p₁ p₂ h1 h2

theorem recipGo_post_match (selfId : MapId) (rng : Nat → Nat) (l : List Portal) :
    ∀ (idx : Nat) (store : Store),
      (∀ q ∈ l, q.target ≠ selfId ∧ 3 ≤ (store q.target).width ∧
        3 ≤ (store q.target).height) →
      ∀ q ∈ (recipGo selfId rng l idx store).1,
        ∃ op ∈ ((recipGo selfId rng l idx store).2 q.target).portals,
          op.portal_to_map_position = q.local_position := by
  induction l with
  | nil => intro idx store _ q hq; simp [recipGo] at hq
  | cons p rest ih =>
    intro idx store hA
    obtain ⟨hself, hw, hh⟩ := hA p (List.mem_cons_self _ _)
    have hdeg : ¬((store p.target).width < 3 ∨ (store p.target).height < 3) := by omega
    by_cases hfm : foundMatch p.local_position (store p.target).portals
    · intro q hq
      simp only [recipGo, if_neg hdeg, if_pos hfm] at hq ⊢
      rcases List.mem_cons.mp hq with rfl | hq
      · obtain ⟨op, hop, hpv⟩ := (foundMatch_iff _ _).mp hfm
        exact ⟨op, recipGo_portals_mono hop, hpv⟩
      · exact ih (idx + 1) store (fun r hr => hA r (List.mem_cons_of_mem _ hr)) q hq
    · intro q hq
      simp only [recipGo, if_neg hdeg, if_neg hfm] at hq ⊢
      set store1 := Function.update store p.target
        (Map.add_portal (store p.target)
          (reciprocalPosition p.portal_to_map_facing (store p.target).width
            (store p.target).height (rng idx))
          p.portal_to_map_facing.neg p.local_position selfId) with hstore1
      have hA1 : ∀ r ∈ rest, r.target ≠ selfId ∧ 3 ≤ (store1 r.target).width ∧
          3 ≤ (store1 r.target).height := by
        intro r hr
        obtain ⟨h1, h2, h3⟩ := hA r (List.mem_cons_of_mem _ hr)
        obtain ⟨hw1, hh1⟩ := update_add_portal_preserves_size store p.target
          (reciprocalPosition p.portal_to_map_facing (store p.target).width
            (store p.target).height (rng idx))
          p.portal_to_map_facing.neg p.local_position selfId r.target
        rw [hstore1]
        exact ⟨h1, by rw [hw1]; exact h2, by rw [hh1]; exact h3⟩
      rcases List.mem_cons.mp hq with rfl | hq
      · have hnew : (⟨reciprocalPosition p.portal_to_map_facing (store p.target).width
            (store p.target).height (rng idx),
            p.portal_to_map_facing.neg, p.local_position, selfId⟩ : Portal) ∈
            (store1 p.target).portals := by
          rw [hstore1, Function.update_same, Map.add_portal]
          simp
        exact ⟨_, recipGo_portals_mono hnew, rfl⟩
      · exact ih (idx + 1) store1 hA1 q hq

theorem recipGo_all_match (selfId : MapId) (rng : Nat → Nat) (l : List Portal) :
    ∀ (idx : Nat) (store : Store),
      (∀ q ∈ l, (3 ≤ (store q.target).width ∧ 3 ≤ (store q.target).height) ∧
        ∃ op ∈ (store q.target).portals, op.portal_to_map_position = q.local_position) →
      recipGo selfId rng l idx store = (l, store) := by
  induction l with
  | nil => intro idx store _; simp [recipGo]
  | cons p rest ih =>
    intro idx store hA
    obtain ⟨⟨hw, hh⟩, hmatch⟩ := hA p (List.mem_cons_self _ _)
    have hdeg : ¬((store p.target).width < 3 ∨ (store p.target).height < 3) := by omega
    have hfm : foundMatch p.local_position (store p.target).portals = true :=
      (foundMatch_iff _ _).mpr hmatch
    have htail := ih (idx + 1) store (fun r hr => hA r (List.mem_cons_of_mem _ hr))
    simp only [recipGo, if_neg hdeg, if_pos hfm, htail]

theorem reciprocalPosition_on_edge (f : CardinalDirection) (w h r : Nat)
    (hw : 3 ≤ w) (hh : 3 ≤ h) :
    oppositeEdgeNonCorner f w h (reciprocalPosition f w h r) := by
  have hwmod : r % (w - 1 - 1) < w - 1 - 1 := Nat.mod_lt r (by omega)
  have hhmod : r % (h - 1 - 1) < h - 1 - 1 := Nat.mod_lt r (by omega)
  cases f <;>
    refine ⟨?_, ?_, ?_⟩ <;>
    simp only [reciprocalPosition, oppositeEdgeNonCorner, genRange] <;>
    push_cast <;>
    omega

theorem ptmCount_eq_zero {v : Position} {ps : List Portal} :
    ptmCount v ps = 0 ↔ ∀ op ∈ ps, op.portal_to_map_position ≠ v := by
  simp [ptmCount, List.countP_eq_zero]

theorem recipGo_reciprocates (selfId : MapId) (rng : Nat → Nat) :
    ∀ (i : Nat) (l : List Portal) (idx : Nat) (store : Store),
      (∀ q ∈ l, q.target ≠ selfId ∧ 3 ≤ (store q.target).width ∧
        3 ≤ (store q.target).height) →
      ∀ (hi : i < l.length),
        ptmCount (l[i].local_position) ((store (l[i].target)).portals) = 0 →
        (∀ j (hj : j < i), l[j].target = l[i].target →
          l[j].local_position ≠ l[i].local_position) →
        ∃ q : Portal,
          q ∈ ((recipGo selfId rng l idx store).2 (l[i].target)).portals ∧
            q.portal_to_map_position = l[i].local_position ∧
            q.target = selfId ∧
            oppositeEdgeNonCorner (l[i].portal_to_map_facing)
              ((store (l[i].target)).width) ((store (l[i].target)).height)
              q.local_position ∧
            ptmCount (l[i].local_position)
              (((recipGo selfId rng l idx store).2 (l[i].target)).portals) = 1 ∧
            (recipGo selfId rng l idx store).1[i]? =
              some { l[i] with portal_to_map_position := q.local_position } := by
  intro i
  induction i with
  | zero =>
    rintro (_ | ⟨p, rest⟩) idx store hA hi hNo hDup
    · simp at hi
    · obtain ⟨hself, hw, hh⟩ := hA p (List.mem_cons_self _ _)
      have hdeg : ¬((store p.target).width < 3 ∨ (store p.target).height < 3) := by omega
      simp only [List.getElem_cons_zero] at hNo ⊢
      have hfm : foundMatch p.local_position (store p.target).portals = false := by
        rw [foundMatch_eq_false]
        exact ptmCount_eq_zero.mp hNo
      have hfm' : ¬(foundMatch p.local_position (store p.target).portals = true) := by
        simp [hfm]
      set qpos := reciprocalPosition p.portal_to_map_facing (store p.target).width
        (store p.target).height (rng idx) with hqpos
      set store1 := Function.update store p.target
        (Map.add_portal (store p.target) qpos p.portal_to_map_facing.neg
          p.local_position selfId) with hstore1
      have hgo : recipGo selfId rng (p :: rest) idx store =
          ({ p with portal_to_map_position := qpos } ::
              (recipGo selfId rng rest (idx + 1) store1).1,
            (recipGo selfId rng rest (idx + 1) store1).2) := by
        simp only [recipGo, if_neg hdeg, if_neg hfm']
      have hqmem : (⟨qpos, p.portal_to_map_facing.neg, p.local_position, selfId⟩ :
          Portal) ∈ (store1 p.target).portals := by
        rw [hstore1, Function.update_same, Map.add_portal]
        simp
      refine ⟨⟨qpos, p.portal_to_map_facing.neg, p.local_position, selfId⟩,
        ?_, rfl, rfl, ?_, ?_, ?_⟩
      · rw [hgo]
        exact recipGo_portals_mono hqmem
      · exact reciprocalPosition_on_edge _ _ _ _ hw hh
      · rw [hgo]
        have hcnt := recipGo_count_of_match selfId rng rest (idx + 1) store1 p.target
          p.local_position ⟨_, hqmem, rfl⟩
        show ptmCount p.local_position
          (((recipGo selfId rng rest (idx + 1) store1).2 p.target).portals) = 1
        rw [hcnt, hstore1, update_add_portal_portals]
        rw [if_pos rfl, ptmCount_append, hNo, ptmCount_singleton]
        simp
      · rw [hgo]
        simp
  | succ i ih =>
    rintro (_ | ⟨p, rest⟩) idx store hA hi hNo hDup
    · simp at hi
    · obtain ⟨hself, hw, hh⟩ := hA p (List.mem_cons_self _ _)
      have hdeg : ¬((store p.target).width < 3 ∨ (store p.target).height < 3) := by omega
      have hi' : i < rest.length := by simpa using hi
      simp only [List.getElem_cons_succ] at hNo ⊢
      have hA' : ∀ r ∈ rest, r.target ≠ selfId ∧ 3 ≤ (store r.target).width ∧
          3 ≤ (store r.target).height :=
        fun r hr => hA r (List.mem_cons_of_mem _ hr)
      have hDup' : ∀ j (hj : j < i), rest[j].target = rest[i].target →
          rest[j].local_position ≠ rest[i].local_position := by
        intro j hj
        have h := hDup (j + 1) (by omega)
        simpa using h
      by_cases hfm : foundMatch p.local_position (store p.target).portals
      · have hgo : recipGo selfId rng (p :: rest) idx store =
            (p :: (recipGo selfId rng rest (idx + 1) store).1,
              (recipGo selfId rng rest (idx + 1) store).2) := by
          simp only [recipGo, if_neg hdeg, if_pos hfm]
        obtain ⟨q, h1, h2, h3, h4, h5, h6⟩ := ih rest (idx + 1) store hA' hi' hNo hDup'
        rw [hgo]
        exact ⟨q, h1, h2, h3, h4, h5, by simpa using h6⟩
      · set qpos := reciprocalPosition p.portal_to_map_facing (store p.target).width
          (store p.target).height (rng idx) with hqpos
        set store1 := Function.update store p.target
          (Map.add_portal (store p.target) qpos p.portal_to_map_facing.neg
            p.local_position selfId) with hstore1
        have hgo : recipGo selfId rng (p :: rest) idx store =
            ({ p with portal_to_map_position := qpos } ::
                (recipGo selfId rng rest (idx + 1) store1).1,
              (recipGo selfId rng rest (idx + 1) store1).2) := by
          simp only [recipGo, if_neg hdeg, if_neg hfm]
        have hsz := fun id => update_add_portal_preserves_size store p.target qpos
          p.portal_to_map_facing.neg p.local_position selfId id
        have hA1 : ∀ r ∈ rest, r.target ≠ selfId ∧ 3 ≤ (store1 r.target).width ∧
            3 ≤ (store1 r.target).height := by
          intro r hr
          obtain ⟨ha, hb, hc⟩ := hA' r hr
          refine ⟨ha, ?_, ?_⟩
          · rw [hstore1, (hsz r.target).1]; exact hb
          · rw [hstore1, (hsz r.target).2]; exact hc
        have hpne : p.target = rest[i].target →
            p.local_position ≠ rest[i].local_position := by
          have h := hDup 0 (by omega)
          simpa using h
        have hNo1 : ptmCount (rest[i].local_position)
            ((store1 (rest[i].target)).portals) = 0 := by
          rw [hstore1, update_add_portal_portals]
          by_cases hid : rest[i].target = p.target
          · rw [if_pos hid, ptmCount_append, hNo, ptmCount_singleton]
            have hne := hpne hid.symm
            simp [hne]
          · rw [if_neg hid]
            simpa using hNo
        obtain ⟨q, h1, h2, h3, h4, h5, h6⟩ := ih rest (idx + 1) store1 hA1 hi' hNo1 hDup'
        rw [hgo]
        refine ⟨q, h1, h2, h3, ?_, h5, by simpa using h6⟩
        rw [hstore1, (hsz rest[i].target).1, (hsz rest[i].target).2] at h4
        exact h4

theorem update_self_id (res : Store) (selfId : MapId) :
    Function.update res selfId (res selfId) = res := by
  funext id
  by_cases h : id = selfId
  · subst h; rw [Function.update_same]
  · rw [Function.update_noteq h]

/-- C3 (amended): assume the source map and all portal targets have
non-degenerate sizes (at least 3 by 3) and no portal targets the source
itself (a self-portal deadlocks, see C9).  Then for every portal `P` of the
source whose target `B` holds no portal with position-on-target equal to
`P`'s local position `p` at run start, and whose `(target, local position)`
pair is not repeated by an earlier portal, running
`ReciprocatePortalsGenerator` inserts on `B` exactly one portal `Q` with
position-on-target `p` (a new portal, pointing back at the source), `Q`'s
local position lies on the edge of `B` selected by `P`'s target-facing
direction excluding corners, and `P`'s position-on-target is set to `Q`'s
local position.  Running the generator a second time (any randomness)
changes nothing.  The amendment adds the size/no-self-loop provisos and
restricts the per-portal conclusion to the first portal of each
`(target, local position)` pair: for a repeated pair the second run of the
loop finds the match freshly created for the first and leaves the later
portal's position-on-target untouched (see the counterexample). -/
theorem reciprocatePortals_round_trip (selfId : MapId) (rng : Nat → Nat) (store : Store)
    (hW : 3 ≤ (store selfId).width) (hH : 3 ≤ (store selfId).height)
    (hA : ∀ q ∈ (store selfId).portals, q.target ≠ selfId ∧
      3 ≤ (store q.target).width ∧ 3 ≤ (store q.target).height) :
    (∀ (i : Nat) (hi : i < (store selfId).portals.length),
      ptmCount ((store selfId).portals[i].local_position)
        ((store ((store selfId).portals[i].target)).portals) = 0 →
      (∀ j (hj : j < i),
        (store selfId).portals[j].target = (store selfId).portals[i].target →
        (store selfId).portals[j].local_position ≠
          (store selfId).portals[i].local_position) →
      ∃ q : Portal,
        q ∈ ((ReciprocatePortalsGenerator.dun_gen_map selfId rng store)
            ((store selfId).portals[i].target)).portals ∧
          q ∉ (store ((store selfId).portals[i].target)).portals ∧
          q.portal_to_map_position = (store selfId).portals[i].local_position ∧
          q.target = selfId ∧
          oppositeEdgeNonCorner ((store selfId).portals[i].portal_to_map_facing)
            ((store ((store selfId).portals[i].target)).width)
            ((store ((store selfId).portals[i].target)).height) q.local_position ∧
          ptmCount ((store selfId).portals[i].local_position)
            (((ReciprocatePortalsGenerator.dun_gen_map selfId rng store)
              ((store selfId).portals[i].target)).portals) = 1 ∧
          ((ReciprocatePortalsGenerator.dun_gen_map selfId rng store) selfId).portals[i]? =
            some { (store selfId).portals[i] with
              portal_to_map_position := q.local_position }) ∧
      (∀ rng2 : Nat → Nat,
        ReciprocatePortalsGenerator.dun_gen_map selfId rng2
            (ReciprocatePortalsGenerator.dun_gen_map selfId rng store) =
          ReciprocatePortalsGenerator.dun_gen_map selfId rng store) := by
  have hdeg : ¬((store selfId).width < 3 ∨ (store selfId).height < 3) := by omega
  have hdg : ReciprocatePortalsGenerator.dun_gen_map selfId rng store =
      Function.update (recipGo selfId rng (store selfId).portals 0 store).2 selfId
        { (recipGo selfId rng (store selfId).portals 0 store).2 selfId with
          portals := (recipGo selfId rng (store selfId).portals 0 store).1 } := by
    simp only [ReciprocatePortalsGenerator.dun_gen_map, if_neg hdeg]
  constructor
  · intro i hi hNo hDup
    have hBmem : (store selfId).portals[i] ∈ (store selfId).portals :=
      List.getElem_mem _
    have hBne : (store selfId).portals[i].target ≠ selfId := (hA _ hBmem).1
    obtain ⟨q, h1, h2, h3, h4, h5, h6⟩ :=
      recipGo_reciprocates selfId rng i (store selfId).portals 0 store hA hi hNo hDup
    refine ⟨q, ?_, ?_, h2, h3, h4, ?_, ?_⟩
    · rw [hdg, Function.update_noteq hBne]
      exact h1
    · intro hcontra
      have := ptmCount_pos_of_mem hcontra h2
      omega
    · rw [hdg, Function.update_noteq hBne]
      exact h5
    · rw [hdg, Function.update_same]
      exact h6
  · intro rng2
    set R := recipGo selfId rng (store selfId).portals 0 store with hR
    set res := ReciprocatePortalsGenerator.dun_gen_map selfId rng store with hres
    have hresdef : res = Function.update R.2 selfId
        { R.2 selfId with portals := R.1 } := hdg
    have hpres : ∀ id, (R.2 id).width = (store id).width ∧
        (R.2 id).height = (store id).height :=
      fun id => recipGo_preserves_size selfId rng (store selfId).portals 0 store id
    have hresW : (res selfId).width = (store selfId).width := by
      rw [hresdef, Function.update_same]
      exact (hpres selfId).1
    have hresH : (res selfId).height = (store selfId).height := by
      rw [hresdef, Function.update_same]
      exact (hpres selfId).2
    have hresP : (res selfId).portals = R.1 := by
      rw [hresdef, Function.update_same]
    obtain ⟨hlen, hpoint⟩ := recipGo_processed selfId rng (store selfId).portals 0 store
    have horig : ∀ q ∈ R.1, ∃ p₂ ∈ (store selfId).portals,
        q.local_position = p₂.local_position ∧
          q.portal_to_map_facing = p₂.portal_to_map_facing ∧ q.target = p₂.target := by
      intro q hq
      obtain ⟨k, hk, hkq⟩ := List.getElem_of_mem hq
      have hk2 : k < (store selfId).portals.length := by
        rw [← hlen]; exact hk
      have h1 : R.1[k]? = some q := by
        rw [List.getElem?_eq_getElem hk, hkq]
      have h2 : (store selfId).portals[k]? = some ((store selfId).portals[k]) :=
        List.getElem?_eq_getElem hk2
      obtain ⟨ha, hb, hc⟩ := hpoint k q ((store selfId).portals[k]) h1 h2
      exact ⟨(store selfId).portals[k], List.getElem_mem _, ha, hb, hc⟩
    have hallmatch : ∀ q ∈ R.1,
        (3 ≤ (res q.target).width ∧ 3 ≤ (res q.target).height) ∧
          ∃ op ∈ (res q.target).portals, op.portal_to_map_position = q.local_position := by
      intro q hq
      obtain ⟨p₂, hp₂, hloc, _, htgt⟩ := horig q hq
      obtain ⟨hne, hw2, hh2⟩ := hA p₂ hp₂
      have hqne : q.target ≠ selfId := by rw [htgt]; exact hne
      have hresq : res q.target = R.2 q.target := by
        rw [hresdef, Function.update_noteq hqne]
      obtain ⟨op, hop, hopv⟩ := recipGo_post_match selfId rng (store selfId).portals 0
        store hA q hq
      refine ⟨⟨?_, ?_⟩, ⟨op, ?_, hopv⟩⟩
      · rw [hresq, (hpres q.target).1, htgt]; exact hw2
      · rw [hresq, (hpres q.target).2, htgt]; exact hh2
      · rw [hresq]; exact hop
    have hdeg2 : ¬((res selfId).width < 3 ∨ (res selfId).height < 3) := by
      rw [hresW, hresH]; omega
    have hgo2 : recipGo selfId rng2 (res selfId).portals 0 res = ((res selfId).portals, res) := by
      apply recipGo_all_match
      intro q hq
      rw [hresP] at hq
      exact hallmatch q hq
    have : ReciprocatePortalsGenerator.dun_gen_map selfId rng2 res =
        Function.update res selfId { res selfId with portals := (res selfId).portals } := by
      simp only [ReciprocatePortalsGenerator.dun_gen_map, if_neg hdeg2, hgo2]
    rw [this]
    have heta : { res selfId with portals := (res selfId).portals } = res selfId := rfl
    rw [heta, update_self_id]

/-- C3 counterexample: on `recipDupStore`, whose source map 0 carries two
portals with the same local position `(1, 0)` and the same target map 1, and
whose map 1 holds no matching portal before the run, the claim demands for
the SECOND portal `P₂` that its position-on-target be set to the local
position of a portal `Q` on map 1 with `Q.position_on_target = (1, 0)`.
After the run, map 1 holds exactly one such portal, with local position
`(1, 0)`, while `P₂`'s position-on-target remains its original `(0, 0)`:
the reciprocation of the first portal made `found_match` true for the
second, which is left untouched. -/
theorem reciprocate_duplicate_counterexample :
    ptmCount ⟨1, 0⟩ ((recipDupStore 1).portals) = 0 ∧
      ((ReciprocatePortalsGenerator.dun_gen_map 0 (fun _ => 0) recipDupStore) 1).portals =
        [⟨⟨1, 0⟩, .South, ⟨1, 0⟩, 0⟩] ∧
      ((ReciprocatePortalsGenerator.dun_gen_map 0 (fun _ => 0) recipDupStore) 0).portals[1]? =
        some ⟨⟨1, 0⟩, .North, ⟨0, 0⟩, 1⟩ ∧
      ((⟨0, 0⟩ : Position) = ⟨1, 0⟩ → False) := by
  refine ⟨by decide, by decide, by decide, by decide⟩

/-- Witness for C3 (amended) on `recipExampleStore`: the single portal of
map 0 is reciprocated on map 1 and the second run is the identity. -/
theorem reciprocate_round_trip_witness :
    (∃ q : Portal,
      q ∈ ((ReciprocatePortalsGenerator.dun_gen_map 0 (fun _ => 0) recipExampleStore) 1).portals ∧
        q ∉ (recipExampleStore 1).portals ∧
        q.portal_to_map_position = ⟨1, 0⟩ ∧
        q.target = 0 ∧
        oppositeEdgeNonCorner .North 3 3 q.local_position ∧
        ptmCount ⟨1, 0⟩
          (((ReciprocatePortalsGenerator.dun_gen_map 0 (fun _ => 0) recipExampleStore) 1).portals) = 1 ∧
        ((ReciprocatePortalsGenerator.dun_gen_map 0 (fun _ => 0) recipExampleStore) 0).portals[0]? =
          some ⟨⟨1, 0⟩, .North, q.local_position, 1⟩) ∧
      ReciprocatePortalsGenerator.dun_gen_map 0 (fun _ => 0)
          (ReciprocatePortalsGenerator.dun_gen_map 0 (fun _ => 0) recipExampleStore) =
        ReciprocatePortalsGenerator.dun_gen_map 0 (fun _ => 0) recipExampleStore := by
  have h := reciprocatePortals_round_trip 0 (fun _ => 0) recipExampleStore
    (by decide) (by decide) (by decide)
  refine ⟨?_, h.2 (fun _ => 0)⟩
  have h0 := h.1 0 (by decide) (by decide) (fun j hj => absurd hj (by omega))
  simpa [recipExampleStore] using h0

/-- C8 (amended): `ReciprocatePortalsGenerator` makes no mutation at all when
the SOURCE map's size is degenerate; when the loop meets a portal whose
TARGET is degenerate it returns at that portal without computing a random
position, leaving that portal, all later portals, and the registry exactly as
they were at that point (mutations already performed for earlier portals are
kept — the whole run is not a no-op, see the counterexample); and
`EdgePortalsGenerator` adds no portal and makes no mutation when the map's
width or height is below 3. -/
theorem degenerate_input_decline :
    (∀ (selfId : MapId) (rng : Nat → Nat) (store : Store),
      (store selfId).width < 3 ∨ (store selfId).height < 3 →
      ReciprocatePortalsGenerator.dun_gen_map selfId rng store = store) ∧
      (∀ (selfId : MapId) (rng : Nat → Nat) (p : Portal) (rest : List Portal)
        (idx : Nat) (store : Store),
        (store p.target).width < 3 ∨ (store p.target).height < 3 →
        recipGo selfId rng (p :: rest) idx store = (p :: rest, store)) ∧
      (∀ (count : Nat) (vert side : Nat → Bool) (off : Nat → Nat)
        (targets : Nat → MapId) (m : Map),
        m.width < 3 ∨ m.height < 3 →
        EdgePortalsGenerator.dun_gen_map count vert side off targets m = m) := by
  refine ⟨?_, ?_, ?_⟩
  · intro selfId rng store h
    simp only [ReciprocatePortalsGenerator.dun_gen_map, if_pos h]
  · intro selfId rng p rest idx store h
    simp only [recipGo, if_pos h]
  · intro count vert side off targets m h
    simp only [EdgePortalsGenerator.dun_gen_map, if_pos h]

/-- C8 counterexample: on `recipDegenStore` a portal of the source targets
the degenerate 2 by 2 map 2, so by the claim the whole run should be a
no-op; yet the run reciprocates the earlier portal onto map 1, which gains a
portal. -/
theorem degenerate_not_noop_counterexample :
    (recipDegenStore 2).width < 3 ∧
      (recipDegenStore 0).portals.map Portal.target = [1, 2] ∧
      (recipDegenStore 1).portals.length = 0 ∧
      ((ReciprocatePortalsGenerator.dun_gen_map 0 (fun _ => 0) recipDegenStore) 1).portals.length = 1 := by
  refine ⟨by decide, by decide, by decide, by decide⟩

/-- Witness for C8 (amended): the three decline behaviours at concrete
inputs (degenerate source map 2; the degenerate-target portal of map 0; a
2 by 5 map offered to the edge-portal generator). -/
theorem degenerate_decline_witness :
    ReciprocatePortalsGenerator.dun_gen_map 2 (fun _ => 0) recipDegenStore =
        recipDegenStore ∧
      recipGo 0 (fun _ => 0) [⟨⟨2, 1⟩, .East, ⟨0, 0⟩, 2⟩] 0 recipDegenStore =
        ([⟨⟨2, 1⟩, .East, ⟨0, 0⟩, 2⟩], recipDegenStore) ∧
      EdgePortalsGenerator.dun_gen_map 7 (fun _ => true) (fun _ => false) (fun _ => 0)
          (fun _ => 5)
          { width := 2, height := 5, tiles := fun _ => none, portals := [], sub_maps := [] } =
        { width := 2, height := 5, tiles := fun _ => none, portals := [], sub_maps := [] } :=
  ⟨degenerate_input_decline.1 2 (fun _ => 0) recipDegenStore (by decide),
    degenerate_input_decline.2.1 0 (fun _ => 0) ⟨⟨2, 1⟩, .East, ⟨0, 0⟩, 2⟩ [] 0
      recipDegenStore (by decide),
    degenerate_input_decline.2.2 7 (fun _ => true) (fun _ => false) (fun _ => 0)
      (fun _ => 5) _ (by decide)⟩

/-- C9 is a code bug: `dun_gen_map` write-locks `maps[portal.target()]` with
no self-loop check while already holding the source's write lock, so on a
registry whose map 0 carries a portal targeting map 0 itself the attempted
lock sequence re-acquires handle 0 — the claimed detect-before-acquire is
absent and the real code deadlocks. -/
theorem reciprocate_self_loop_lock_reacquired :
    (selfLoopStore 0).portals.map Portal.target = [0] ∧
      recipLocks 0 selfLoopStore = [0] ∧
      (0 : MapId) ∈ recipLocks 0 selfLoopStore := by
  refine ⟨by decide, by decide, by decide⟩

theorem subMapLoop_progress (c : Position → MapId → Bool) (pos : Nat → Position) :
    ∀ (k s : Nat) (inv : List MapId) (fuel : Nat),
      (∀ j, j < k → c (pos (s + j)) (s + j) = false) →
      c (pos (s + k)) (s + k) = true →
      k + 1 ≤ fuel →
      subMapLoop none (some c) pos fuel s inv =
        some (inv ++ (List.range k).map (fun j => s + j), pos (s + k), s + k) := by
  intro k
  induction k with
  | zero =>
    intro s inv fuel _ hacc hfuel
    obtain ⟨f, rfl⟩ : ∃ f, fuel = f + 1 := ⟨fuel - 1, by omega⟩
    have hacc' : c (pos s) s = true := by simpa using hacc
    simp only [subMapLoop]
    rw [if_pos hacc']
    simp
  | succ k ih =>
    intro s inv fuel hrej hacc hfuel
    obtain ⟨f, rfl⟩ : ∃ f, fuel = f + 1 := ⟨fuel - 1, by omega⟩
    have h0 : ¬(c (pos s) s = true) := by
      have := hrej 0 (by omega)
      simp at this
      simp [this]
    have hstep := ih (s + 1) (inv ++ [s]) f
      (fun j hj => by
        have := hrej (j + 1) (by omega)
        simpa [Nat.add_assoc, Nat.add_comm 1 j] using this)
      (by
        have heq : s + 1 + k = s + (k + 1) := by omega
        rw [heq]; exact hacc)
      (by omega)
    simp only [subMapLoop]
    rw [if_neg h0, hstep]
    have hfun : (fun j => s + 1 + j) = (fun j => s + j) ∘ Nat.succ := by
      funext j
      show s + 1 + j = s + Nat.succ j
      omega
    have hlist : (inv ++ [s]) ++ (List.range k).map (fun j => s + 1 + j) =
        inv ++ (List.range (k + 1)).map (fun j => s + j) := by
      rw [List.append_assoc]
      congr 1
      rw [List.range_succ_eq_map, List.map_cons, List.map_map, ← hfun]
      simp
    rw [hlist]
    have hsk : s + 1 + k = s + (k + 1) := by omega
    rw [hsk]

theorem subMapLoop_fuel_out (c : Position → MapId → Bool) (pos : Nat → Position) :
    ∀ (fuel s : Nat) (inv : List MapId),
      (∀ j, j < fuel → c (pos (s + j)) (s + j) = false) →
      subMapLoop none (some c) pos fuel s inv = none := by
  intro fuel
  induction fuel with
  | zero => intro s inv _; rfl
  | succ f ih =>
    intro s inv hrej
    have h0 : ¬(c (pos s) s = true) := by
      have := hrej 0 (by omega)
      simp at this
      simp [this]
    simp only [subMapLoop]
    rw [if_neg h0]
    exact ih (s + 1) (inv ++ [s]) (fun j hj => by
      have := hrej (j + 1) (by omega)
      simpa [Nat.add_assoc, Nat.add_comm 1 j] using this)

/-- C5: for one count step of `SubMapGenerator` with a single validity
predicate (the generator-level one; no set-level check) that rejects the
first `k` sampled `(position, handle)` candidates and accepts the
`(k+1)`-th: the loop performs exactly `k` invalidation-and-retry cycles
(the invalidation trace is exactly the `k` distinct rejected handles, which
are retained, never freed, and never resampled), then embeds exactly one
sub-map into the parent — the accepted candidate at its sampled position.
The loop needs exactly `k + 1` iterations: every fuel bound of at most `k`
leaves it still running.  With no validity predicate at all, the first
candidate is embedded with zero retries. -/
theorem subMapGenerator_retry_exactly_k (c : Position → MapId → Bool)
    (pos : Nat → Position) (k : Nat)
    (hrej : ∀ j, j < k → c (pos j) j = false)
    (hacc : c (pos k) k = true) :
    (∀ fuel, k + 1 ≤ fuel →
      subMapLoop none (some c) pos fuel 0 [] = some (List.range k, pos k, k)) ∧
      (∀ fuel, fuel ≤ k → subMapLoop none (some c) pos fuel 0 [] = none) ∧
      (∀ fuel parentId store, k + 1 ≤ fuel →
        SubMapGenerator.place none (some c) pos fuel parentId store =
          some (List.range k, Function.update store parentId
            { store parentId with
              sub_maps := (store parentId).sub_maps ++ [⟨pos k, k⟩] })) ∧
      (∀ fuel pos2, subMapLoop none none pos2 (fuel + 1) 0 [] = some ([], pos2 0, 0)) := by
  have hloop : ∀ fuel, k + 1 ≤ fuel →
      subMapLoop none (some c) pos fuel 0 [] = some (List.range k, pos k, k) := by
    intro fuel hfuel
    have h := subMapLoop_progress c pos k 0 [] fuel
      (fun j hj => by simpa using hrej j hj) (by simpa using hacc) hfuel
    simpa using h
  refine ⟨hloop, ?_, ?_, ?_⟩
  · intro fuel hfuel
    exact subMapLoop_fuel_out c pos fuel 0 []
      (fun j hj => by simpa using hrej j (by omega))
  · intro fuel parentId store hfuel
    simp only [SubMapGenerator.place, hloop fuel hfuel]
  · intro fuel pos2
    simp [subMapLoop]

/-- Witness for C5 at `k = 2`: the check accepts exactly the handles of
value at least 2, so candidates 0 and 1 are invalidated and candidate 2 is
embedded; fuel 2 leaves the loop running. -/
theorem subMapGenerator_retry_witness :
    subMapLoop none (some (fun _ id => decide (2 ≤ id))) (fun i => ⟨i, 0⟩) 9 0 [] =
        some ([0, 1], ⟨2, 0⟩, 2) ∧
      subMapLoop none (some (fun _ id => decide (2 ≤ id))) (fun i => ⟨i, 0⟩) 2 0 [] = none ∧
      subMapLoop none none (fun i => ⟨i, 0⟩) 9 0 [] = some ([], ⟨0, 0⟩, 0) := by
  have h := subMapGenerator_retry_exactly_k (fun _ id => decide (2 ≤ id))
    (fun i => ⟨i, 0⟩) 2
    (by
      intro j hj
      show decide (2 ≤ j) = false
      exact decide_eq_false (by omega))
    (by decide)
  refine ⟨(h.1 9 (by omega)).trans (by decide), h.2.1 2 (by omega), ?_⟩
  have h4 := h.2.2.2 8 (fun i => ⟨i, 0⟩)
  simpa using h4

/-- C6: the sub-map placement retry loop has no retry bound and no
failure-reporting exit.  With a validity predicate (in either slot) that
rejects every candidate, no amount of fuel makes the loop break: every
finite unfolding of `SubMapGenerator::dun_gen_map`'s loop is still running,
and the count step never embeds anything — the code never terminates. -/
theorem subMapGenerator_no_retry_bound (g : Position → MapId → Bool)
    (pos : Nat → Position) (hrej : ∀ p id, g p id = false) :
    (∀ fuel i inv, subMapLoop none (some g) pos fuel i inv = none) ∧
      (∀ fuel i inv, subMapLoop (some g) none pos fuel i inv = none) ∧
      (∀ fuel parentId store, SubMapGenerator.place none (some g) pos fuel parentId store = none) := by
  have h1 : ∀ fuel i inv, subMapLoop none (some g) pos fuel i inv = none := by
    intro fuel
    induction fuel with
    | zero => intro i inv; rfl
    | succ f ih =>
      intro i inv
      have h0 : ¬(g (pos i) i = true) := by simp [hrej]
      simp only [subMapLoop]
      rw [if_neg h0]
      exact ih (i + 1) (inv ++ [i])
  have h2 : ∀ fuel i inv, subMapLoop (some g) none pos fuel i inv = none := by
    intro fuel
    induction fuel with
    | zero => intro i inv; rfl
    | succ f ih =>
      intro i inv
      have h0 : ¬(g (pos i) i = true) := by simp [hrej]
      simp only [subMapLoop]
      rw [if_neg h0]
      exact ih (i + 1) (inv ++ [i])
  refine ⟨h1, h2, ?_⟩
  intro fuel parentId store
  simp only [SubMapGenerator.place, h1 fuel 0 []]

/-- Witness for C6 with the constantly-false predicate at several concrete
fuels. -/
theorem subMapGenerator_no_bound_witness :
    subMapLoop none (some (fun _ _ => false)) (fun i => ⟨i, 0⟩) 25 0 [] = none ∧
      subMapLoop (some (fun _ _ => false)) none (fun i => ⟨i, 0⟩) 25 0 [] = none ∧
      SubMapGenerator.place none (some (fun _ _ => false)) (fun i => ⟨i, 0⟩) 25 0
        recipExampleStore = none := by
  have h := subMapGenerator_no_retry_bound (fun _ _ => false) (fun i => ⟨i, 0⟩)
    (fun _ _ => rfl)
  exact ⟨h.1 25 0 [], h.2.1 25 0 [], h.2.2 25 0 recipExampleStore⟩

theorem writeWall_apply_ne (dr : List (Option TileType))
    (tiles : Position → Option TileType) (q p : Position) (h : p ≠ q) :
    writeWall dr tiles q p = tiles p := by
  unfold writeWall
  by_cases hq : tiles q ∈ dr
  · rw [if_pos hq]
  · rw [if_neg hq, Function.update_noteq h]

theorem walkWrite_apply (dr : List (Option TileType)) :
    ∀ (ps : List Position) (tiles : Position → Option TileType) (p : Position),
      walkWrite dr ps tiles p =
        if p ∈ ps then (if tiles p ∈ dr then tiles p else some TileType.Wall)
        else tiles p := by
  intro ps
  induction ps with
  | nil => intro tiles p; simp [walkWrite]
  | cons q ps ih =>
    intro tiles p
    have hstep : walkWrite dr (q :: ps) tiles = walkWrite dr ps (writeWall dr tiles q) :=
      rfl
    rw [hstep, ih]
    by_cases hpq : p = q
    · subst hpq
      by_cases hin : tiles p ∈ dr
      · have ht1 : writeWall dr tiles p p = tiles p := by
          unfold writeWall
          rw [if_pos hin]
        rw [ht1]
        by_cases hps : p ∈ ps
        · simp [hps, hin, List.mem_cons]
        · simp [hps, hin, List.mem_cons]
      · have ht1 : writeWall dr tiles p p = some TileType.Wall := by
          unfold writeWall
          rw [if_neg hin, Function.update_same]
        rw [ht1]
        by_cases hps : p ∈ ps
        · by_cases hw : some TileType.Wall ∈ dr <;>
            simp [hps, hin, hw, List.mem_cons]
        · simp [hps, hin, List.mem_cons]
    · rw [writeWall_apply_ne dr tiles q p hpq]
      by_cases hps : p ∈ ps
      · simp [hps, hpq, List.mem_cons]
      · simp [hps, hpq, List.mem_cons]

/-- C10: pointwise effect of `WalledRoomGenerator::dun_gen_map`.  With any
filter `dr` (the `with_filter` constructor), a position the wall loops visit
keeps its tile exactly when the tile's current value is in `dr` and is set
to `Wall` otherwise, and every position the loops do not visit is untouched;
with the `new()` default filter `[some TileType.Portal]` this specializes
to: a visited position whose tile reads `Portal` is never replaced, every
other visited position is set to `Wall`.  A zero-size resolved area leaves
the map unchanged. -/
theorem walledRoom_filter_frame (provArea : Area) (dr : List (Option TileType))
    (m : Map) (p : Position) :
    ((WalledRoomGenerator.dun_gen_map provArea dr m).tiles p =
      if (WalledRoomGenerator.resolvedArea provArea m).width = 0 ∧
          (WalledRoomGenerator.resolvedArea provArea m).height = 0 then m.tiles p
      else if p ∈ walledVisited (WalledRoomGenerator.resolvedArea provArea m) then
        (if m.tiles p ∈ dr then m.tiles p else some TileType.Wall)
      else m.tiles p) ∧
      ((WalledRoomGenerator.dun_gen_map provArea [some TileType.Portal] m).tiles p =
        if (WalledRoomGenerator.resolvedArea provArea m).width = 0 ∧
            (WalledRoomGenerator.resolvedArea provArea m).height = 0 then m.tiles p
        else if p ∈ walledVisited (WalledRoomGenerator.resolvedArea provArea m) then
          (if m.tiles p = some TileType.Portal then m.tiles p else some TileType.Wall)
        else m.tiles p) := by
  have hgen : ∀ dr2 : List (Option TileType),
      (WalledRoomGenerator.dun_gen_map provArea dr2 m).tiles p =
        if (WalledRoomGenerator.resolvedArea provArea m).width = 0 ∧
            (WalledRoomGenerator.resolvedArea provArea m).height = 0 then m.tiles p
        else if p ∈ walledVisited (WalledRoomGenerator.resolvedArea provArea m) then
          (if m.tiles p ∈ dr2 then m.tiles p else some TileType.Wall)
        else m.tiles p := by
    intro dr2
    by_cases hz : (WalledRoomGenerator.resolvedArea provArea m).width = 0 ∧
        (WalledRoomGenerator.resolvedArea provArea m).height = 0
    · rw [if_pos hz]
      unfold WalledRoomGenerator.dun_gen_map
      rw [if_pos hz]
    · rw [if_neg hz]
      unfold WalledRoomGenerator.dun_gen_map
      rw [if_neg hz]
      exact walkWrite_apply dr2 _ m.tiles p
  refine ⟨hgen dr, ?_⟩
  rw [hgen [some TileType.Portal]]
  by_cases hz : (WalledRoomGenerator.resolvedArea provArea m).width = 0 ∧
      (WalledRoomGenerator.resolvedArea provArea m).height = 0
  · rw [if_pos hz, if_pos hz]
  · rw [if_neg hz, if_neg hz]
    by_cases hv : p ∈ walledVisited (WalledRoomGenerator.resolvedArea provArea m)
    · rw [if_pos hv, if_pos hv]
      by_cases hp : m.tiles p = some TileType.Portal
      · rw [if_pos hp, if_pos (by simp [hp])]
      · rw [if_neg hp, if_neg (by simp [hp])]
    · rw [if_neg hv, if_neg hv]

theorem mergePotential_pos (store : Store) (d : Nat) (id : MapId) :
    1 ≤ mergePotential store d id := by
  cases d <;> simp [mergePotential]

theorem mergeQueuePotential_cons (store : Store) (e : MergeEntry)
    (q : List MergeEntry) :
    mergeQueuePotential store (e :: q) =
      mergePotential store e.depth e.id + mergeQueuePotential store q := by
  simp [mergeQueuePotential]

theorem mergeQueuePotential_append (store : Store) (q₁ q₂ : List MergeEntry) :
    mergeQueuePotential store (q₁ ++ q₂) =
      mergeQueuePotential store q₁ + mergeQueuePotential store q₂ := by
  simp [mergeQueuePotential]

theorem mergeCollect_sub_sum (pf : Portal → Bool) (f : MapId → Nat) :
    ∀ (l : List Portal) (visited : List MapId),
      (((mergeCollect pf l visited).2).map (fun x => f x.2)).sum ≤
        (l.map (fun p => f p.target)).sum := by
  intro l
  induction l with
  | nil => intro visited; simp [mergeCollect]
  | cons p rest ih =>
    intro visited
    by_cases hf : pf p
    · by_cases hv : p.target ∈ visited
      · simp only [mergeCollect, if_pos hf, if_pos hv, List.map_cons, List.sum_cons]
        exact le_trans (ih visited) (Nat.le_add_left _ _)
      · simp only [mergeCollect, if_pos hf, if_neg hv, List.map_cons, List.sum_cons]
        exact Nat.add_le_add_left (ih (p.target :: visited)) _
    · simp only [mergeCollect, if_neg hf, List.map_cons, List.sum_cons]
      exact le_trans (ih visited) (Nat.le_add_left _ _)

theorem mergeCollect_spec (pf : Portal → Bool) :
    ∀ (l : List Portal) (visited : List MapId),
      (∀ x ∈ (mergeCollect pf l visited).2,
        x.2 ∉ visited ∧ ∃ p ∈ l, pf p = true ∧
          x.1 = p.local_position - p.portal_to_map_position ∧ x.2 = p.target) ∧
        ((mergeCollect pf l visited).2.map Prod.snd).Nodup ∧
        (∀ id ∈ visited, id ∈ (mergeCollect pf l visited).1) ∧
        (∀ x ∈ (mergeCollect pf l visited).2, x.2 ∈ (mergeCollect pf l visited).1) := by
  intro l
  induction l with
  | nil => intro visited; simp [mergeCollect]
  | cons p rest ih =>
    intro visited
    by_cases hf : pf p
    · by_cases hv : p.target ∈ visited
      · obtain ⟨h1, h2, h3, h4⟩ := ih visited
        simp only [mergeCollect, if_pos hf, if_pos hv]
        refine ⟨?_, h2, h3, h4⟩
        intro x hx
        obtain ⟨ha, q, hq, hb⟩ := h1 x hx
        exact ⟨ha, q, List.mem_cons_of_mem _ hq, hb⟩
      · obtain ⟨h1, h2, h3, h4⟩ := ih (p.target :: visited)
        simp only [mergeCollect, if_pos hf, if_neg hv]
        refine ⟨?_, ?_, ?_, ?_⟩
        · intro x hx
          rcases List.mem_cons.mp hx with rfl | hx
          · exact ⟨hv, p, List.mem_cons_self _ _, hf, rfl, rfl⟩
          · obtain ⟨ha, q, hq, hb⟩ := h1 x hx
            exact ⟨fun hmem => ha (List.mem_cons_of_mem _ hmem), q,
              List.mem_cons_of_mem _ hq, hb⟩
        · simp only [List.map_cons]
          refine List.Nodup.cons ?_ h2
          intro hmem
          obtain ⟨x, hx, hxv⟩ := List.mem_map.mp hmem
          obtain ⟨ha, _⟩ := h1 x hx
          exact ha (by rw [hxv]; exact List.mem_cons_self _ _)
        · intro id hid
          exact h3 id (List.mem_cons_of_mem _ hid)
        · intro x hx
          rcases List.mem_cons.mp hx with rfl | hx
          · exact h3 _ (List.mem_cons_self _ _)
          · exact h4 x hx
    · obtain ⟨h1, h2, h3, h4⟩ := ih visited
      simp only [mergeCollect, if_neg hf]
      refine ⟨?_, h2, h3, h4⟩
      intro x hx
      obtain ⟨ha, q, hq, hb⟩ := h1 x hx
      exact ⟨ha, q, List.mem_cons_of_mem _ hq, hb⟩

theorem mergeCollect_complete (pf : Portal → Bool) :
    ∀ (i : Nat) (l : List Portal) (visited : List MapId) (hi : i < l.length),
      pf l[i] = true → l[i].target ∉ visited →
      (∀ j (hj : j < i), pf l[j] = true → l[j].target ≠ l[i].target) →
      (l[i].local_position - l[i].portal_to_map_position, l[i].target) ∈
        (mergeCollect pf l visited).2 := by
  intro i
  induction i with
  | zero =>
    rintro (_ | ⟨p, rest⟩) visited hi hacc hfresh _
    · simp at hi
    · simp only [List.getElem_cons_zero] at hacc hfresh ⊢
      simp only [mergeCollect, if_pos hacc, if_neg hfresh]
      exact List.mem_cons_self _ _
  | succ i ih =>
    rintro (_ | ⟨p, rest⟩) visited hi hacc hfresh hDup
    · simp at hi
    · have hi' : i < rest.length := by simpa using hi
      simp only [List.getElem_cons_succ] at hacc hfresh ⊢
      have hDup' : ∀ j (hj : j < i), pf rest[j] = true →
          rest[j].target ≠ rest[i].target := by
        intro j hj
        have h := hDup (j + 1) (by omega)
        simpa using h
      by_cases hf : pf p
      · by_cases hv : p.target ∈ visited
        · simp only [mergeCollect, if_pos hf, if_pos hv]
          exact ih rest visited hi' hacc hfresh hDup'
        · simp only [mergeCollect, if_pos hf, if_neg hv]
          have hne : p.target ≠ rest[i].target := by
            have h := hDup 0 (by omega)
            simpa [hf] using h
          have hfresh' : rest[i].target ∉ p.target :: visited := by
            intro hmem
            rcases List.mem_cons.mp hmem with heq | hmem
            · exact hne heq.symm
            · exact hfresh hmem
          exact List.mem_cons_of_mem _ (ih rest (p.target :: visited) hi' hacc hfresh' hDup')
      · simp only [mergeCollect, if_neg hf]
        exact ih rest visited hi' hacc hfresh hDup'

theorem mergeBfs_acc_prefix (pf : Portal → Bool) (store : Store) :
    ∀ (fuel : Nat) (queue : List MergeEntry) (visited : List MapId)
      (acc : List SubMap),
      ∃ more, (mergeBfs pf store fuel queue visited acc).2 = acc ++ more := by
  intro fuel
  induction fuel with
  | zero => intro queue visited acc; exact ⟨[], by simp [mergeBfs]⟩
  | succ f ih =>
    rintro (_ | ⟨e, queue⟩) visited acc
    · exact ⟨[], by simp [mergeBfs]⟩
    · by_cases hd : e.depth = 0
      · simp only [mergeBfs, if_pos hd]
        exact ih queue visited acc
      · simp only [mergeBfs, if_neg hd]
        obtain ⟨more, hmore⟩ := ih
          (queue ++ (mergeCollect pf (store e.id).portals visited).2.map
            (fun x => ⟨e.acc + x.1, e.depth - 1, x.2⟩))
          (mergeCollect pf (store e.id).portals visited).1
          (acc ++ (mergeCollect pf (store e.id).portals visited).2.map
            (fun x => ⟨e.acc + x.1, x.2⟩))
        rw [hmore, List.append_assoc]
        exact ⟨_, rfl⟩

theorem mergeBfs_nodup (pf : Portal → Bool) (store : Store) :
    ∀ (fuel : Nat) (queue : List MergeEntry) (visited : List MapId)
      (acc : List SubMap),
      (acc.map SubMap.value).Nodup →
      (∀ s ∈ acc, s.value ∈ visited) →
      ((mergeBfs pf store fuel queue visited acc).2.map SubMap.value).Nodup ∧
        (∀ s ∈ (mergeBfs pf store fuel queue visited acc).2,
          s.value ∈ (mergeBfs pf store fuel queue visited acc).1) := by
  intro fuel
  induction fuel with
  | zero =>
    intro queue visited acc h1 h2
    simpa [mergeBfs] using ⟨h1, h2⟩
  | succ f ih =>
    rintro (_ | ⟨e, queue⟩) visited acc h1 h2
    · simpa [mergeBfs] using ⟨h1, h2⟩
    · by_cases hd : e.depth = 0
      · simp only [mergeBfs, if_pos hd]
        exact ih queue visited acc h1 h2
      · simp only [mergeBfs, if_neg hd]
        obtain ⟨hc1, hc2, hc3, hc4⟩ := mergeCollect_spec pf (store e.id).portals visited
        set col := mergeCollect pf (store e.id).portals visited with hcol
        have hmapval : (col.2.map (fun x => (⟨e.acc + x.1, x.2⟩ : SubMap))).map
            SubMap.value = col.2.map Prod.snd := by
          rw [List.map_map]
          rfl
        apply ih
        · rw [List.map_append, hmapval]
          refine List.Nodup.append h1 hc2 ?_
          intro a ha hb
          obtain ⟨s, hs, hsv⟩ := List.mem_map.mp ha
          obtain ⟨x, hx, hxv⟩ := List.mem_map.mp hb
          obtain ⟨hnv, _⟩ := hc1 x hx
          exact hnv (by rw [hxv, ← hsv]; exact h2 s hs)
        · intro s hs
          rcases List.mem_append.mp hs with hs | hs
          · exact hc3 _ (h2 s hs)
          · obtain ⟨x, hx, hxv⟩ := List.mem_map.mp hs
            rw [← hxv]
            exact hc4 x hx

theorem mergeBfs_sound (pf : Portal → Bool) (store : Store) (root : MapId) :
    ∀ (fuel : Nat) (queue : List MergeEntry) (visited : List MapId)
      (acc : List SubMap),
      (∀ e ∈ queue, AccPath pf store root e.acc e.id) →
      (∀ s ∈ acc, AccPath pf store root s.position s.value) →
      ∀ s ∈ (mergeBfs pf store fuel queue visited acc).2,
        AccPath pf store root s.position s.value := by
  intro fuel
  induction fuel with
  | zero =>
    intro queue visited acc _ hacc s hs
    simp only [mergeBfs] at hs
    exact hacc s hs
  | succ f ih =>
    rintro (_ | ⟨e, queue⟩) visited acc hq hacc s hs
    · simp only [mergeBfs] at hs
      exact hacc s hs
    · by_cases hd : e.depth = 0
      · simp only [mergeBfs, if_pos hd] at hs
        exact ih queue visited acc (fun x hx => hq x (List.mem_cons_of_mem _ hx))
          hacc s hs
      · simp only [mergeBfs, if_neg hd] at hs
        obtain ⟨hc1, _, _, _⟩ := mergeCollect_spec pf (store e.id).portals visited
        have hpath : ∀ x ∈ (mergeCollect pf (store e.id).portals visited).2,
            AccPath pf store root (e.acc + x.1) x.2 := by
          intro x hx
          obtain ⟨_, p, hp, hpf, hoff, htgt⟩ := hc1 x hx
          have := AccPath.cons (hq e (List.mem_cons_self _ _)) hp hpf
          rw [hoff, htgt]
          exact this
        refine ih _ _ _ ?_ ?_ s hs
        · intro x hx
          rcases List.mem_append.mp hx with hx | hx
          · exact hq x (List.mem_cons_of_mem _ hx)
          · obtain ⟨y, hy, hyv⟩ := List.mem_map.mp hx
            rw [← hyv]
            exact hpath y hy
        · intro t ht
          rcases List.mem_append.mp ht with ht | ht
          · exact hacc t ht
          · obtain ⟨y, hy, hyv⟩ := List.mem_map.mp ht
            rw [← hyv]
            exact hpath y hy

theorem mergeBfs_fuel_succ (pf : Portal → Bool) (store : Store) :
    ∀ (fuel : Nat) (queue : List MergeEntry) (visited : List MapId)
      (acc : List SubMap),
      mergeQueuePotential store queue ≤ fuel →
      mergeBfs pf store (fuel + 1) queue visited acc =
        mergeBfs pf store fuel queue visited acc := by
  intro fuel
  induction fuel with
  | zero =>
    rintro (_ | ⟨e, queue⟩) visited acc hpot
    · simp [mergeBfs]
    · exfalso
      rw [mergeQueuePotential_cons] at hpot
      have := mergePotential_pos store e.depth e.id
      omega
  | succ f ih =>
    rintro (_ | ⟨e, queue⟩) visited acc hpot
    · simp [mergeBfs]
    · rw [mergeQueuePotential_cons] at hpot
      have hpos := mergePotential_pos store e.depth e.id
      by_cases hd : e.depth = 0
      · have hstep1 : mergeBfs pf store (f + 1 + 1) (e :: queue) visited acc =
            mergeBfs pf store (f + 1) queue visited acc := by
          simp only [mergeBfs, if_pos hd]
        have hstep2 : mergeBfs pf store (f + 1) (e :: queue) visited acc =
            mergeBfs pf store f queue visited acc := by
          simp only [mergeBfs, if_pos hd]
        rw [hstep1, hstep2]
        exact ih queue visited acc (by omega)
      · obtain ⟨d, hdd⟩ : ∃ d, e.depth = d + 1 := ⟨e.depth - 1, by omega⟩
        set col := mergeCollect pf (store e.id).portals visited with hcol
        have hstep1 : mergeBfs pf store (f + 1 + 1) (e :: queue) visited acc =
            mergeBfs pf store (f + 1)
              (queue ++ col.2.map (fun x => ⟨e.acc + x.1, e.depth - 1, x.2⟩))
              col.1 (acc ++ col.2.map (fun x => ⟨e.acc + x.1, x.2⟩)) := by
          simp only [mergeBfs, if_neg hd]
        have hstep2 : mergeBfs pf store (f + 1) (e :: queue) visited acc =
            mergeBfs pf store f
              (queue ++ col.2.map (fun x => ⟨e.acc + x.1, e.depth - 1, x.2⟩))
              col.1 (acc ++ col.2.map (fun x => ⟨e.acc + x.1, x.2⟩)) := by
          simp only [mergeBfs, if_neg hd]
        rw [hstep1, hstep2]
        apply ih
        rw [mergeQueuePotential_append]
        have hpush : mergeQueuePotential store
            (col.2.map (fun x => ⟨e.acc + x.1, e.depth - 1, x.2⟩)) =
            (col.2.map (fun x => mergePotential store (e.depth - 1) x.2)).sum := by
          simp only [mergeQueuePotential, List.map_map]
          rfl
        have hsub := mergeCollect_sub_sum pf
          (fun id => mergePotential store d id) (store e.id).portals visited
        have hpot_e : mergePotential store e.depth e.id =
            1 + ((store e.id).portals.map
              (fun p => mergePotential store d p.target)).sum := by
          rw [hdd]
          rfl
        rw [hpush]
        have hdm : e.depth - 1 = d := by omega
        rw [hdm]
        rw [hpot_e] at hpot
        rw [← hcol] at hsub
        omega

theorem mergeBfs_fuel_stable (pf : Portal → Bool) (store : Store) :
    ∀ (extra : Nat) (queue : List MergeEntry) (visited : List MapId)
      (acc : List SubMap),
      mergeBfs pf store (mergeQueuePotential store queue + extra) queue visited acc =
        mergeBfs pf store (mergeQueuePotential store queue) queue visited acc := by
  intro extra
  induction extra with
  | zero => intro queue visited acc; rfl
  | succ n ih =>
    intro queue visited acc
    have h := mergeBfs_fuel_succ pf store (mergeQueuePotential store queue + n)
      queue visited acc (by omega)
    calc mergeBfs pf store (mergeQueuePotential store queue + (n + 1)) queue visited acc
        = mergeBfs pf store (mergeQueuePotential store queue + n + 1) queue visited acc := by
          rw [Nat.add_assoc]
      _ = mergeBfs pf store (mergeQueuePotential store queue + n) queue visited acc := h
      _ = mergeBfs pf store (mergeQueuePotential store queue) queue visited acc :=
          ih queue visited acc

/-- C7: for every portal graph (self-loops and cycles included), recursion
depth, persistent visited set and root, one merge pass terminates — the
breadth-first loop completes within its queue-potential fuel, beyond which
more fuel never changes the result — and embeds no map as a sub-map of the
root more than once: the newly added sub-map references carry pairwise
distinct handles (every handle is inserted into the visited set when
collected, before its own portals are expanded, and portals to visited
targets are skipped).  Maps other than the root are never written. -/
theorem merge_terminates_no_duplicate_embedding (pf : Portal → Bool)
    (recursion_depth : Nat) (visited0 : List MapId) (map_id : MapId)
    (store : Store) :
    (∃ added,
      ((MergePortalMapsAsSubMapsGenerator.dun_gen_map pf recursion_depth visited0
          map_id store).2 map_id).sub_maps = (store map_id).sub_maps ++ added ∧
        (added.map SubMap.value).Nodup) ∧
      (∀ id, id ≠ map_id →
        (MergePortalMapsAsSubMapsGenerator.dun_gen_map pf recursion_depth visited0
          map_id store).2 id = store id) ∧
      (∀ (fuel : Nat) (queue : List MergeEntry) (visited : List MapId)
        (acc : List SubMap), mergeQueuePotential store queue ≤ fuel →
        mergeBfs pf store fuel queue visited acc =
          mergeBfs pf store (mergeQueuePotential store queue) queue visited acc) := by
  have hterm : ∀ (fuel : Nat) (queue : List MergeEntry) (visited : List MapId)
      (acc : List SubMap), mergeQueuePotential store queue ≤ fuel →
      mergeBfs pf store fuel queue visited acc =
        mergeBfs pf store (mergeQueuePotential store queue) queue visited acc := by
    intro fuel queue visited acc hle
    obtain ⟨extra, rfl⟩ : ∃ extra, fuel = mergeQueuePotential store queue + extra :=
      ⟨fuel - mergeQueuePotential store queue, by omega⟩
    exact mergeBfs_fuel_stable pf store extra queue visited acc
  by_cases hv : map_id ∈ visited0
  · refine ⟨⟨[], ?_, by simp⟩, ?_, hterm⟩
    · simp only [MergePortalMapsAsSubMapsGenerator.dun_gen_map, if_pos hv,
        List.append_nil]
    · intro id _
      simp only [MergePortalMapsAsSubMapsGenerator.dun_gen_map, if_pos hv]
  · by_cases hd0 : recursion_depth = 0
    · refine ⟨⟨[], ?_, by simp⟩, ?_, hterm⟩
      · simp only [MergePortalMapsAsSubMapsGenerator.dun_gen_map, if_neg hv,
          if_pos hd0, List.append_nil]
      · intro id _
        simp only [MergePortalMapsAsSubMapsGenerator.dun_gen_map, if_neg hv,
          if_pos hd0]
    · obtain ⟨hc1, hc2, hc3, hc4⟩ :=
        mergeCollect_spec pf (store map_id).portals (map_id :: visited0)
      set col := mergeCollect pf (store map_id).portals (map_id :: visited0)
        with hcol
      have hsubs1val : (col.2.map (fun x => (⟨x.1, x.2⟩ : SubMap))).map
          SubMap.value = col.2.map Prod.snd := by
        rw [List.map_map]
        rfl
      by_cases hd1 : recursion_depth = 1
      · refine ⟨⟨col.2.map (fun x => (⟨x.1, x.2⟩ : SubMap)), ?_, ?_⟩, ?_, hterm⟩
        · simp only [MergePortalMapsAsSubMapsGenerator.dun_gen_map, if_neg hv,
            if_neg hd0, if_pos hd1, Function.update_same]
        · rw [hsubs1val]
          exact hc2
        · intro id hid
          simp only [MergePortalMapsAsSubMapsGenerator.dun_gen_map, if_neg hv,
            if_neg hd0, if_pos hd1, Function.update_noteq hid]
      · set entries := col.2.map
          (fun x => (⟨x.1, recursion_depth - 1, x.2⟩ : MergeEntry)) with hentries
        set subs1 := col.2.map (fun x => (⟨x.1, x.2⟩ : SubMap)) with hsubs1
        obtain ⟨hn1, _⟩ := mergeBfs_nodup pf store
          (mergeQueuePotential store entries) entries col.1 subs1
          (by rw [hsubs1, hsubs1val]; exact hc2)
          (by
            intro s hs
            rw [hsubs1] at hs
            obtain ⟨x, hx, hxv⟩ := List.mem_map.mp hs
            rw [← hxv]
            exact hc4 x hx)
        refine ⟨⟨(mergeBfs pf store (mergeQueuePotential store entries) entries
            col.1 subs1).2, ?_, hn1⟩, ?_, hterm⟩
        · simp only [MergePortalMapsAsSubMapsGenerator.dun_gen_map, if_neg hv,
            if_neg hd0, if_neg hd1, Function.update_same]
        · intro id hid
          simp only [MergePortalMapsAsSubMapsGenerator.dun_gen_map, if_neg hv,
            if_neg hd0, if_neg hd1, Function.update_noteq hid]

/-- C4 (amended): with a fresh guard and recursion depth at least 1, every
portal of the root accepted by the filter whose target is neither the root
itself nor the target of an earlier accepted portal gets a SubMapRef
registered on the root at offset exactly
`local_position − position_on_target`; and every sub-map reference the pass
registers on the root (the deeper hops included) has offset equal to the
vector sum of the per-hop offsets along a chain of filter-accepted portals
leading from the root to its handle.  The amendment adds the
depth-at-least-one and first-portal-to-reach-the-target provisos: a portal
whose target was already reached (by the root itself or an earlier portal)
registers nothing, as the counterexample shows. -/
theorem merge_offsets_sound_and_complete (pf : Portal → Bool)
    (recursion_depth : Nat) (map_id : MapId) (store : Store)
    (hd : 1 ≤ recursion_depth) :
    ∃ added,
      ((MergePortalMapsAsSubMapsGenerator.dun_gen_map pf recursion_depth []
          map_id store).2 map_id).sub_maps = (store map_id).sub_maps ++ added ∧
        (∀ (i : Nat) (hi : i < (store map_id).portals.length),
          pf (store map_id).portals[i] = true →
          (store map_id).portals[i].target ≠ map_id →
          (∀ j (hj : j < i), pf (store map_id).portals[j] = true →
            (store map_id).portals[j].target ≠ (store map_id).portals[i].target) →
          (⟨(store map_id).portals[i].local_position -
              (store map_id).portals[i].portal_to_map_position,
            (store map_id).portals[i].target⟩ : SubMap) ∈ added) ∧
        (∀ s ∈ added, AccPath pf store map_id s.position s.value) := by
  have hv : map_id ∉ ([] : List MapId) := List.not_mem_nil _
  have hd0 : recursion_depth ≠ 0 := by omega
  obtain ⟨hc1, hc2, hc3, hc4⟩ :=
    mergeCollect_spec pf (store map_id).portals [map_id]
  set col := mergeCollect pf (store map_id).portals [map_id] with hcol
  set subs1 := col.2.map (fun x => (⟨x.1, x.2⟩ : SubMap)) with hsubs1
  have hcomplete : ∀ (i : Nat) (hi : i < (store map_id).portals.length),
      pf (store map_id).portals[i] = true →
      (store map_id).portals[i].target ≠ map_id →
      (∀ j (hj : j < i), pf (store map_id).portals[j] = true →
        (store map_id).portals[j].target ≠ (store map_id).portals[i].target) →
      (⟨(store map_id).portals[i].local_position -
          (store map_id).portals[i].portal_to_map_position,
        (store map_id).portals[i].target⟩ : SubMap) ∈ subs1 := by
    intro i hi hacc hne hDup
    have hfresh : (store map_id).portals[i].target ∉ [map_id] := by
      simpa using hne
    have hmem := mergeCollect_complete pf i (store map_id).portals [map_id] hi
      hacc hfresh hDup
    rw [hsubs1]
    exact List.mem_map.mpr ⟨_, hmem, rfl⟩
  have hsubs1sound : ∀ s ∈ subs1, AccPath pf store map_id s.position s.value := by
    intro s hs
    rw [hsubs1] at hs
    obtain ⟨x, hx, hxv⟩ := List.mem_map.mp hs
    obtain ⟨_, p, hp, hpf, hoff, htgt⟩ := hc1 x hx
    rw [← hxv]
    show AccPath pf store map_id x.1 x.2
    rw [hoff, htgt]
    exact AccPath.single hp hpf
  by_cases hd1 : recursion_depth = 1
  · refine ⟨subs1, ?_, hcomplete, hsubs1sound⟩
    simp only [MergePortalMapsAsSubMapsGenerator.dun_gen_map, if_neg hv,
      if_neg hd0, if_pos hd1, Function.update_same]
  · set entries := col.2.map
      (fun x => (⟨x.1, recursion_depth - 1, x.2⟩ : MergeEntry)) with hentries
    have hentriespath : ∀ e ∈ entries, AccPath pf store map_id e.acc e.id := by
      intro e he
      rw [hentries] at he
      obtain ⟨x, hx, hxv⟩ := List.mem_map.mp he
      obtain ⟨_, p, hp, hpf, hoff, htgt⟩ := hc1 x hx
      rw [← hxv]
      show AccPath pf store map_id x.1 x.2
      rw [hoff, htgt]
      exact AccPath.single hp hpf
    obtain ⟨more, hmore⟩ := mergeBfs_acc_prefix pf store
      (mergeQueuePotential store entries) entries col.1 subs1
    refine ⟨(mergeBfs pf store (mergeQueuePotential store entries) entries
        col.1 subs1).2, ?_, ?_, ?_⟩
    · simp only [MergePortalMapsAsSubMapsGenerator.dun_gen_map, if_neg hv,
        if_neg hd0, if_neg hd1, Function.update_same]
    · intro i hi hacc hne hDup
      rw [hmore]
      exact List.mem_append_left _ (hcomplete i hi hacc hne hDup)
    · exact mergeBfs_sound pf store map_id (mergeQueuePotential store entries)
        entries col.1 subs1 hentriespath hsubs1sound

/-- C4 counterexample: on `mergeDupStore` both portals of the root target
map 1 and both are accepted by the constant-true filter, yet the run (depth
1, fresh guard) registers only the first portal's SubMapRef, at offset
`(5, 0) − (1, 0) = (4, 0)`; no SubMapRef at the second portal's offset
`(9, 9) − (2, 2) = (7, 7)` exists, refuting the claim's universal
quantification over accepted portals. -/
theorem merge_duplicate_target_counterexample :
    (mergeDupStore 0).portals.map Portal.target = [1, 1] ∧
      ((MergePortalMapsAsSubMapsGenerator.dun_gen_map (fun _ => true) 1 [] 0
          mergeDupStore).2 0).sub_maps = [⟨⟨4, 0⟩, 1⟩] ∧
      ((⟨⟨7, 7⟩, 1⟩ : SubMap) ∈
          ((MergePortalMapsAsSubMapsGenerator.dun_gen_map (fun _ => true) 1 [] 0
            mergeDupStore).2 0).sub_maps → False) := by
  refine ⟨by decide, by decide, by decide⟩

/-- Witness for C4 (amended) on the two-hop chain registry at depth 2. -/
theorem merge_offsets_witness :
    ∃ added,
      ((MergePortalMapsAsSubMapsGenerator.dun_gen_map (fun _ => true) 2 [] 0
          mergeChainStore).2 0).sub_maps = (mergeChainStore 0).sub_maps ++ added ∧
        ((⟨(⟨2, 3⟩ : Position) - ⟨1, 1⟩, 1⟩ : SubMap) ∈ added) ∧
        (∀ s ∈ added, AccPath (fun _ => true) mergeChainStore 0 s.position s.value) := by
  obtain ⟨added, h1, h2, h3⟩ := merge_offsets_sound_and_complete (fun _ => true) 2 0
    mergeChainStore (by decide)
  refine ⟨added, h1, ?_, h3⟩
  have h := h2 0 (by decide) (by decide) (by decide) (fun j hj => absurd hj (by omega))
  simpa [mergeChainStore] using h

/-- Witness for C7 on `mergeDupStore` (a graph with a repeated target) at
depth 3, with the frame clause at handle 5 and the fuel-stability clause at
the empty queue. -/
theorem merge_terminates_witness :
    (∃ added,
      ((MergePortalMapsAsSubMapsGenerator.dun_gen_map (fun _ => true) 3 [] 0
          mergeDupStore).2 0).sub_maps = (mergeDupStore 0).sub_maps ++ added ∧
        (added.map SubMap.value).Nodup) ∧
      (MergePortalMapsAsSubMapsGenerator.dun_gen_map (fun _ => true) 3 [] 0
          mergeDupStore).2 5 = mergeDupStore 5 ∧
      mergeBfs (fun _ => true) mergeDupStore 9 [] [] [] =
        mergeBfs (fun _ => true) mergeDupStore
          (mergeQueuePotential mergeDupStore []) [] [] [] := by
  obtain ⟨h1, h2, h3⟩ := merge_terminates_no_duplicate_embedding (fun _ => true) 3 []
    0 mergeDupStore
  exact ⟨h1, h2 5 (by decide), h3 9 [] [] [] (by decide)⟩

end DungenMinion
